import Mathlib

/-!
# Verification of the Dolphin RV64 emulator core

Shallow embedding, in Lean 4, of the parts of the Dolphin emulator that the
specification's claims are about:

* bit primitives (`src/emulator/src/utils/bit_utils.rs`),
* the processor state and register file (`src/emulator/src/emulator/state.rs`),
* the memory/MMIO bus (`src/emulator/src/emulator/memory.rs`),
* the instruction decoder with its hot-path cache
  (`src/emulator/src/emulator/instructions/mod.rs`),
* the RV64I and RV64M instruction handlers
  (`src/emulator/src/emulator/instructions/rv64i.rs`, `rv64m.rs`),
* the Timer MMIO device (`src/devices/timer/src/lib.rs`),
* the event ring buffer (`src/src/utils/ringbuf.rs`).

Machine integers (`u32`, `u64`) are modelled as `Nat` with explicit reduction
`% 2 ^ 32` / `% 2 ^ 64` wherever the Rust source performs wrapping
arithmetic; signed views (`i64`, `i32`) are modelled through `Int` with
explicit two's-complement conversions.  Fallible Rust functions
(`Result<T, E>`) become `Except E T`; functions taking `&mut self` are
state-passing and, in their error case, return the state exactly as mutated
up to the point of the early `return`.
-/

/-! ## Bit primitives (`src/emulator/src/utils/bit_utils.rs`) -/

/-- `u64::MAX` as a natural number. -/
def U64_MAX : Nat := 2 ^ 64 - 1

/-- `u32::MAX` as a natural number. -/
def U32_MAX : Nat := 2 ^ 32 - 1

/-- `BitSlice::bit` for `u64`: `(self & (1 << pos)) != 0`. -/
def bit64 (v pos : Nat) : Bool := v &&& (1 <<< pos) != 0

/-- `BitSlice::bit_range` for `u64` (with the range `lo..hi` end-exclusive):
if the range is empty the result is `0`, otherwise `(self & mask) >> lo`
with `mask = (1 << hi) - 1` (or all ones when `hi = 64`). -/
def bit_range64 (v lo hi : Nat) : Nat :=
  if lo = hi then 0
  else
    let mask := if hi = 64 then U64_MAX else (1 <<< hi) - 1
    (v &&& mask) >>> lo

/-- `BitSlice::bit` for `u32`. -/
def bit32 (v pos : Nat) : Bool := v &&& (1 <<< pos) != 0

/-- `BitSlice::bit_range` for `u32`, returned as a `u64` value. -/
def bit_range32 (v lo hi : Nat) : Nat :=
  if lo = hi then 0
  else
    let mask := if hi = 32 then U32_MAX else (1 <<< hi) - 1
    (v &&& mask) >>> lo

/-- Arithmetic shift right by `s` bits of a 64-bit pattern `x` (as in
`(x as i64) >> s`): a logical shift whose result has its top `s` bits
filled with the sign bit of `x`. -/
def asr64 (x s : Nat) : Nat :=
  if x < 2 ^ 63 then x >>> s
  else (x >>> s) ||| (2 ^ 64 - 2 ^ (64 - s))

/-- `sign_extend_64(value, num_bits)`: shift left by `64 - num_bits`
(the cast `as i64` reinterprets the 64-bit pattern, hence the `% 2 ^ 64`),
then arithmetic-shift right by the same amount. -/
def sign_extend_64 (value numBits : Nat) : Nat :=
  let shiftAmount := 64 - numBits
  asr64 ((value <<< shiftAmount) % 2 ^ 64) shiftAmount

/-! ## Two's-complement helpers

The Rust source casts freely between `u64`/`i64` and `u32`/`i32`; these
conversions make the casts explicit over `Nat`/`Int`. -/

/-- `v as i64` for a `u64` pattern `v < 2 ^ 64`. -/
def toI64 (v : Nat) : Int := if v < 2 ^ 63 then (v : Int) else (v : Int) - 2 ^ 64

/-- `x as u64` for an `i64` value (two's complement of the low 64 bits). -/
def toU64 (x : Int) : Nat := (x % (2 ^ 64 : Int)).toNat

/-- `v as i32` for a `u32` pattern `v < 2 ^ 32`. -/
def toI32 (v : Nat) : Int := if v < 2 ^ 31 then (v : Int) else (v : Int) - 2 ^ 32

/-- `i64::wrapping_div`: truncated division, with the single overflow case
`i64::MIN / -1` wrapping back to `i64::MIN`. -/
def wrappingDiv64 (a b : Int) : Int :=
  let q := Int.tdiv a b
  if q = 2 ^ 63 then -(2 ^ 63) else q

/-- `i64::wrapping_rem`: truncated remainder, the remainder taking the
dividend's sign (`i64::MIN % -1` is `0`, which truncated remainder
already gives, so no wrap case remains). -/
def wrappingRem64 (a b : Int) : Int := Int.tmod a b

/-- `i32::wrapping_div`, sign-extended semantics analogous to `wrappingDiv64`. -/
def wrappingDiv32 (a b : Int) : Int :=
  let q := Int.tdiv a b
  if q = 2 ^ 31 then -(2 ^ 31) else q

/-! ## Processor state (`src/emulator/src/emulator/state.rs`) -/

/-- `StateError` from `state.rs` (the variants the register file uses). -/
inductive StateError where
  | InvalidRegister (n : Nat)
  | InvalidCsr (n : Nat)
  deriving Repr, DecidableEq

/-- The CPU state: `registers: [u64; 32]`, `pc`, `npc`.  The Rust array type
`[u64; 32]` fixes the length at 32, which the `hlen` field records.  (The
CSR map and the memory are carried by the Rust struct as well; the memory
bus is modelled separately below, and the CSR map is not involved in any
claim.) -/
structure State where
  registers : List Nat
  hlen : registers.length = 32
  pc : Nat
  npc : Nat

/-- `State::get_reg`: bounds check against the register array length, then
`x0` reads as `0` and any other register reads its stored value. -/
def State.get_reg (s : State) (reg : Nat) : Except StateError Nat :=
  if reg ≥ s.registers.length then
    .error (.InvalidRegister reg)
  else if reg = 0 then
    .ok 0
  else
    .ok (s.registers.getD reg 0)

/-- `State::set_reg`: bounds check, then the store is skipped for `x0`. -/
def State.set_reg (s : State) (reg v : Nat) : Except StateError State :=
  if h : reg ≥ s.registers.length then
    .error (.InvalidRegister reg)
  else if reg = 0 then
    .ok s
  else
    .ok { s with registers := s.registers.set reg v,
                 hlen := by rw [List.length_set]; exact s.hlen }

/-- `State::set_npc`. -/
def State.set_npc (s : State) (v : Nat) : State := { s with npc := v }

/-- `State::sync_pc`: commits `npc` into `pc`. -/
def State.sync_pc (s : State) : State := { s with pc := s.npc }

/-! ## MMIO device contract and the Timer device
(`src/devices/mmio-trait/src/lib.rs`, `src/devices/timer/src/lib.rs`) -/

/-- `DeviceError` from the MMIO trait crate.  The `Access` variant's
formatted message embeds the offending offset; the embedding keeps the
offset itself as the payload. -/
inductive DeviceError where
  | Access (offset : Nat)
  | Unsupported (msg : String)
  | Internal (msg : String)
  deriving Repr, DecidableEq

/-- The Timer device's state: only a name (the device is otherwise
stateless; reads consult the host wall clock). -/
structure Timer where
  name : String
  deriving Repr, DecidableEq

/-- `Timer::new`. -/
def Timer.new (name : String) : Timer := ⟨name⟩

/-- Register offsets of the Timer device. -/
def CNT0_REG : Nat := 0x00
def CNT1_REG : Nat := 0x04
def CNT2_REG : Nat := 0x08
def CTRL_REG : Nat := 0x0c

/-- `Timer::write`: every offset fails — the three counter offsets and the
control offset with `Unsupported` (the device is read-only), any other
offset with `Access` — and the device is returned unchanged (the Rust
method takes `&mut self` but never mutates). -/
def Timer.write (t : Timer) (offset : Nat) (_data : List Nat) :
    Except DeviceError Unit × Timer :=
  if offset = CNT0_REG ∨ offset = CNT1_REG ∨ offset = CNT2_REG ∨ offset = CTRL_REG then
    (.error (.Unsupported "Timer 为只读设备（读系统时间）"), t)
  else
    (.error (.Access offset), t)

/-! ## Memory/MMIO bus (`src/emulator/src/emulator/memory.rs`)

The bus is generic over the device state type `δ` together with a record of
device operations, mirroring dispatch through `dyn MmioDevice`.  Devices sit
behind `Arc<Mutex<_>>`, so a device mutation made before a propagated error
is kept; the embedding therefore state-passes the device in both outcomes. -/

/-- `u64::wrapping_sub`. -/
def wsub64 (a b : Nat) : Nat := (a % 2 ^ 64 + (2 ^ 64 - b % 2 ^ 64)) % 2 ^ 64

/-- `u64::saturating_add`. -/
def satAdd64 (a b : Nat) : Nat := min (a + b) U64_MAX

/-- `MemoryError` from `memory.rs`. -/
inductive MemoryError where
  | OutOfBounds (addr : Nat) (size : Nat)
  | Misaligned (addr : Nat) (alignment : Nat)
  | MmioOverlap (addr : Nat)
  | Device (e : DeviceError)
  deriving Repr, DecidableEq

/-- The `read`/`write` methods of the `MmioDevice` trait, for a device state
type `δ` (state-passing: the possibly mutated device is returned in both
the success and the error case). -/
structure DeviceOps (δ : Type) where
  read : δ → Nat → Nat → Except DeviceError (List Nat) × δ
  write : δ → Nat → List Nat → Except DeviceError Unit × δ

/-- An MMIO region `{base, size, device, name}`. -/
structure MmioRegion (δ : Type) where
  base : Nat
  size : Nat
  device : δ
  name : String

/-- The memory/bus structure: RAM byte buffer `data`, the RAM window
`[memory_base, memory_base + memory_size)`, the MMIO region list, and the
single-shot MMIO touch flag. -/
structure Memory (δ : Type) where
  data : List Nat
  memory_base : Nat
  memory_size : Nat
  mmio_regions : List (MmioRegion δ)
  is_last_mmio : Bool

/-- `Memory::is_mem_region`: `addr >= memory_base && addr < memory_base +
memory_size` (no u64 overflow occurs for any configuration with
`memory_base + memory_size ≤ 2 ^ 64`, which the theorems assume). -/
def Memory.is_mem_region (m : Memory δ) (addr : Nat) : Prop :=
  addr ≥ m.memory_base ∧ addr < m.memory_base + m.memory_size

instance (m : Memory δ) (addr : Nat) : Decidable (m.is_mem_region addr) := by
  unfold Memory.is_mem_region; infer_instance

/-- `Memory::is_mem_region_range`: `addr >= memory_base &&
addr.saturating_add(size) <= memory_base + memory_size`. -/
def Memory.is_mem_region_range (m : Memory δ) (addr size : Nat) : Prop :=
  addr ≥ m.memory_base ∧ satAdd64 addr size ≤ m.memory_base + m.memory_size

instance (m : Memory δ) (addr size : Nat) :
    Decidable (m.is_mem_region_range addr size) := by
  unfold Memory.is_mem_region_range; infer_instance

/-- `Memory::map_mmio`: reject overlap with any existing region, then with
the RAM window, then append.  The end-of-interval sums `base + size`,
`region.base + region.size` and `memory_base + memory_size` are plain u64
additions in the source, which wrap modulo `2 ^ 64` in release builds; the
embedding wraps them accordingly.  The Rust loop returns
`MmioOverlap{addr=base}` at the first overlapping region; since the error
value does not depend on which region overlapped, the fold is expressed
with `List.any`. -/
def Memory.map_mmio (m : Memory δ) (base size : Nat) (device : δ) (name : String) :
    Except MemoryError Unit × Memory δ :=
  let new_end := (base + size) % 2 ^ 64
  if m.mmio_regions.any (fun region =>
      decide (base < (region.base + region.size) % 2 ^ 64 ∧ new_end > region.base)) then
    (.error (.MmioOverlap base), m)
  else if base < (m.memory_base + m.memory_size) % 2 ^ 64 ∧ new_end > m.memory_base then
    (.error (.MmioOverlap base), m)
  else
    (.ok (), { m with mmio_regions := m.mmio_regions ++ [⟨base, size, device, name⟩] })

/-- The comparator of `Memory::find_mmio_region`'s `binary_search_by`. -/
def mmioCmp (region : MmioRegion δ) (addr : Nat) : Ordering :=
  if addr < region.base then .gt
  else if addr ≥ region.base + region.size then .lt
  else .eq

/-- `slice::binary_search_by` over `mmio_regions`, probing `mid = left +
(right - left) / 2` as the Rust standard library does; `some i` is Rust's
`Ok(i)`, `none` is `Err(_)`. -/
def mmioSearch (regions : List (MmioRegion δ)) (addr : Nat) (left right : Nat) :
    Option Nat :=
  if h : left < right then
    let mid := left + (right - left) / 2
    match regions[mid]? with
    | none => none
    | some region =>
      match mmioCmp region addr with
      | .lt => mmioSearch regions addr (mid + 1) right
      | .gt => mmioSearch regions addr left mid
      | .eq => some mid
  else none
termination_by right - left
decreasing_by
  · omega
  · omega

/-- `Memory::find_mmio_region`: binary search, returning the found index
and region (the search only produces in-range indices). -/
def Memory.find_mmio_region (m : Memory δ) (addr : Nat) :
    Option (Nat × MmioRegion δ) :=
  (mmioSearch m.mmio_regions addr 0 m.mmio_regions.length).bind fun i =>
    (m.mmio_regions[i]?).map fun region => (i, region)

/-- `Memory::translate_address` (used by the generic, non-1/2/4/8 paths):
`wrapping_sub`, alignment check, `checked_add` overflow check, then the
bounds check `end > data.len()`. -/
def Memory.translate_address (m : Memory δ) (addr size alignment : Nat) :
    Except MemoryError Nat :=
  let real_addr := wsub64 addr m.memory_base
  if alignment > 1 ∧ real_addr % alignment ≠ 0 then
    .error (.Misaligned real_addr alignment)
  else if real_addr + size ≥ 2 ^ 64 then
    .error (.OutOfBounds addr size)
  else if real_addr + size > m.data.length then
    .error (.OutOfBounds addr size)
  else
    .ok real_addr

/-- `size` bytes of RAM at buffer offset `pos` (the unsafe little-endian
load immediately serialised back with `to_le_bytes` returns exactly the
underlying bytes). -/
def loadBytes (data : List Nat) (pos size : Nat) : List Nat :=
  (List.range size).map fun i => data.getD (pos + i) 0

/-- Store `bytes` into the RAM buffer starting at offset `pos` (the
little-endian unsafe store writes exactly these bytes). -/
def storeBytes (data : List Nat) (pos : Nat) : List Nat → List Nat
  | [] => data
  | b :: bs => storeBytes (data.set pos b) (pos + 1) bs

/-- `Memory::read`: RAM fast paths for sizes 1/2/4/8 (range check then
unaligned little-endian load), generic path through `translate_address`
otherwise; else MMIO binary search and device dispatch (latching the touch
flag); else `OutOfBounds`. -/
def Memory.read (ops : DeviceOps δ) (m : Memory δ) (addr size : Nat) :
    Except MemoryError (List Nat) × Memory δ :=
  if m.is_mem_region addr then
    if size = 1 ∨ size = 2 ∨ size = 4 ∨ size = 8 then
      -- the four specialized paths: range check, then the unaligned LE load
      if ¬ m.is_mem_region_range addr size then
        (.error (.OutOfBounds addr size), m)
      else
        (.ok (loadBytes m.data (wsub64 addr m.memory_base) size), m)
    else
      -- generic byte-copy path
      match m.translate_address addr size 1 with
      | .error e => (.error e, m)
      | .ok real_addr => (.ok (loadBytes m.data real_addr size), m)
  else
    match m.find_mmio_region addr with
    | some (i, region) =>
      let offset := addr - region.base
      match ops.read region.device offset size with
      | (.error e, d) =>
        (.error (.Device e),
         { m with mmio_regions := m.mmio_regions.set i { region with device := d } })
      | (.ok res, d) =>
        (.ok res,
         { m with mmio_regions := m.mmio_regions.set i { region with device := d },
                  is_last_mmio := true })
    | none => (.error (.OutOfBounds addr size), m)

/-- `Memory::write`: same dispatch structure as `Memory.read`; every bounds
check happens before any byte of `data` is stored. -/
def Memory.write (ops : DeviceOps δ) (m : Memory δ) (addr : Nat) (data : List Nat) :
    Except MemoryError Unit × Memory δ :=
  if m.is_mem_region addr then
    if data.length = 1 ∨ data.length = 2 ∨ data.length = 4 ∨ data.length = 8 then
      -- the four specialized paths: range check, then the unaligned LE store
      if ¬ m.is_mem_region_range addr data.length then
        (.error (.OutOfBounds addr data.length), m)
      else
        (.ok (), { m with data := storeBytes m.data (wsub64 addr m.memory_base) data })
    else
      -- generic byte-copy path
      match m.translate_address addr data.length 1 with
      | .error e => (.error e, m)
      | .ok real_addr => (.ok (), { m with data := storeBytes m.data real_addr data })
  else
    match m.find_mmio_region addr with
    | some (i, region) =>
      let offset := addr - region.base
      match ops.write region.device offset data with
      | (.error e, d) =>
        (.error (.Device e),
         { m with mmio_regions := m.mmio_regions.set i { region with device := d } })
      | (.ok _, d) =>
        (.ok (),
         { m with mmio_regions := m.mmio_regions.set i { region with device := d },
                  is_last_mmio := true })
    | none => (.error (.OutOfBounds addr (data.length)), m)

/-! ## Emulator state and instruction handlers
(`src/emulator/src/emulator/mod.rs`, `exception.rs`,
`instructions/mod.rs`, `instructions/rv64i.rs`, `instructions/rv64m.rs`) -/

/-- `Event` from `state.rs`. -/
inductive Event where
  | None
  | Halted
  | Break
  | WatchWrite (addr : Nat)
  | WatchRead (addr : Nat)
  deriving Repr, DecidableEq

/-- `Exception` from `exception.rs`. -/
inductive Exception where
  | InstructionAddressMisaligned (addr : Nat)
  | AccessFault (addr : Nat)
  | InstructionFault (addr : Nat)
  | IllegalInstruction (instruction : Nat) (addr : Nat)
  | EnvironmentCall
  | Breakpoint
  deriving Repr, DecidableEq

/-- The fields of `Emulator` that the instruction handlers touch: the CPU
state, the current event and the pending-exception slot (`execption`, as
the source spells it).  The execution-control fields, the event ring, the
decoder and the GDB/difftest attachments complete the Rust struct but are
not reachable from any handler. -/
structure Emulator where
  state : State
  event : Event
  execption : Option Exception

/-- `Emulator::get_reg`, delegating to `State::get_reg`. -/
def Emulator.get_reg (emu : Emulator) (reg : Nat) : Except StateError Nat :=
  emu.state.get_reg reg

/-- `Emulator::set_reg`, delegating to `State::set_reg`. -/
def Emulator.set_reg (emu : Emulator) (reg v : Nat) : Except StateError Emulator :=
  match emu.state.set_reg reg v with
  | .error e => .error e
  | .ok s => .ok { emu with state := s }

/-- `Emulator::set_npc`, delegating to `State::set_npc`. -/
def Emulator.set_npc (emu : Emulator) (v : Nat) : Emulator :=
  { emu with state := emu.state.set_npc v }

/-- `Emulator::sync_pc`, delegating to `State::sync_pc`. -/
def Emulator.sync_pc (emu : Emulator) : Emulator :=
  { emu with state := emu.state.sync_pc }

/-- Modelled from the spec: `Emulator::set_pc`, called by the jump and
branch handlers, is not among the provided sources (only its callers in
`rv64i.rs` are).  Per the spec's PC discipline — "handlers mutate `npc`
only; a branch handler simply overwrites `npc`" — it stores the target
into `npc`. -/
def Emulator.set_pc (emu : Emulator) (target : Nat) : Emulator :=
  emu.set_npc target

/-- Modelled from the spec: `is_inst_addr_misaligned`, used by the jump and
branch handlers, is not among the provided sources.  Per the spec,
"misaligned branch targets (low two bits nonzero for uncompressed) raise
`InstructionAddressMisaligned`". -/
def is_inst_addr_misaligned (addr : Nat) : Bool := addr &&& 0b11 != 0

/-! ### Instruction format parsers (`instructions/mod.rs`) -/

structure FormatR where
  rs1 : Nat
  rs2 : Nat
  rd : Nat

/-- `parse_format_r`. -/
def parse_format_r (inst : Nat) : FormatR :=
  { rs1 := bit_range32 inst 15 20
    rs2 := bit_range32 inst 20 25
    rd := bit_range32 inst 7 12 }

structure FormatI where
  rs1 : Nat
  rd : Nat
  imm : Nat

/-- `parse_format_i` (the 12-bit immediate is sign extended). -/
def parse_format_i (inst : Nat) : FormatI :=
  { rs1 := bit_range32 inst 15 20
    rd := bit_range32 inst 7 12
    imm := sign_extend_64 (bit_range32 inst 20 32) 12 }

structure FormatB where
  rs1 : Nat
  rs2 : Nat
  imm : Nat

/-- `parse_format_b` (the 13-bit branch immediate is sign extended). -/
def parse_format_b (inst : Nat) : FormatB :=
  { rs1 := bit_range32 inst 15 20
    rs2 := bit_range32 inst 20 25
    imm := sign_extend_64
      ((cond (bit32 inst 31) 1 0) <<< 12 |||
       (cond (bit32 inst 7) 1 0) <<< 11 |||
       bit_range32 inst 25 31 <<< 5 |||
       bit_range32 inst 8 12 <<< 1) 13 }

structure FormatJ where
  rd : Nat
  imm : Nat

/-- `parse_format_j` (the 21-bit jump immediate is sign extended). -/
def parse_format_j (inst : Nat) : FormatJ :=
  { rd := bit_range32 inst 7 12
    imm := sign_extend_64
      ((cond (bit32 inst 31) 1 0) <<< 20 |||
       bit_range32 inst 12 20 <<< 12 |||
       (cond (bit32 inst 20) 1 0) <<< 11 |||
       bit_range32 inst 21 31 <<< 1) 21 }

/-! ### RV64I jump and branch handlers (`rv64i.rs`) -/

/-- The `jal` handler: write the link `pc + 4` into `rd` first, then check
the target `pc + imm` for misalignment — recording a pending exception and
returning success — and otherwise retarget via `set_pc`. -/
def jal_execute (emu : Emulator) (inst pc : Nat) : Except StateError Emulator := do
  let j := parse_format_j inst
  let emu ← emu.set_reg j.rd ((pc + 4) % 2 ^ 64)
  let target := (pc + j.imm) % 2 ^ 64
  if is_inst_addr_misaligned target then
    return { emu with execption := some (.InstructionAddressMisaligned target) }
  return emu.set_pc target

/-- The `jalr` handler: compute the target from `rs1 + imm` with the low
bit masked off (`& !1u64`), check misalignment — recording a pending
exception and returning success, without having written `rd` — and
otherwise retarget via `set_pc` and only then write the link `pc + 4`
into `rd`. -/
def jalr_execute (emu : Emulator) (inst pc : Nat) : Except StateError Emulator := do
  let i := parse_format_i inst
  let rs1v ← emu.get_reg i.rs1
  let target := ((rs1v + i.imm) % 2 ^ 64) &&& (2 ^ 64 - 2)
  if is_inst_addr_misaligned target then
    return { emu with execption := some (.InstructionAddressMisaligned target) }
  let emu := emu.set_pc target
  emu.set_reg i.rd ((pc + 4) % 2 ^ 64)

/-- The shared shape of the six conditional-branch handlers (`beq`, `bne`,
`blt`, `bge`, `bltu`, `bgeu`), which differ only in the comparison applied
to the two register values: read `rs1` and `rs2`; if taken, compute
`target = pc + imm`; a misaligned target records a pending exception and
returns success, otherwise `set_pc(target)`. -/
def branch_execute (cmp : Nat → Nat → Bool) (emu : Emulator) (inst pc : Nat) :
    Except StateError Emulator := do
  let b := parse_format_b inst
  let lhs ← emu.get_reg b.rs1
  let rhs ← emu.get_reg b.rs2
  if cmp lhs rhs then
    let target := (pc + b.imm) % 2 ^ 64
    if is_inst_addr_misaligned target then
      return { emu with execption := some (.InstructionAddressMisaligned target) }
    return emu.set_pc target
  return emu

/-- `beq`: taken when `lhs == rhs`. -/
def beq_execute : Emulator → Nat → Nat → Except StateError Emulator :=
  branch_execute fun lhs rhs => lhs == rhs

/-- `bne`: taken when `lhs != rhs`. -/
def bne_execute : Emulator → Nat → Nat → Except StateError Emulator :=
  branch_execute fun lhs rhs => lhs != rhs

/-- `blt`: taken when `(lhs as i64) < (rhs as i64)`. -/
def blt_execute : Emulator → Nat → Nat → Except StateError Emulator :=
  branch_execute fun lhs rhs => decide (toI64 lhs < toI64 rhs)

/-- `bge`: taken when `(lhs as i64) >= (rhs as i64)`. -/
def bge_execute : Emulator → Nat → Nat → Except StateError Emulator :=
  branch_execute fun lhs rhs => decide (toI64 lhs ≥ toI64 rhs)

/-- `bltu`: taken when `lhs < rhs` (unsigned). -/
def bltu_execute : Emulator → Nat → Nat → Except StateError Emulator :=
  branch_execute fun lhs rhs => decide (lhs < rhs)

/-- `bgeu`: taken when `lhs >= rhs` (unsigned). -/
def bgeu_execute : Emulator → Nat → Nat → Except StateError Emulator :=
  branch_execute fun lhs rhs => decide (lhs ≥ rhs)

/-! ### RV64M division/remainder handlers (`rv64m.rs`)

The file's own comment reproduces RISC-V Table 7.1: on division by zero
`DIVU[W]` yields `2^L - 1`, `DIV[W]` yields `-1`, and `REMU[W]`/`REM[W]`
yield the dividend (`X`), where `L` is the operand width. -/

/-- The `div` handler: operands as `i64`; divisor `0` writes `-1i64 as
u64`; otherwise `wrapping_div`. -/
def div_execute (emu : Emulator) (inst _pc : Nat) : Except StateError Emulator := do
  let r := parse_format_r inst
  let lhs := toI64 (← emu.get_reg r.rs1)
  let rhs := toI64 (← emu.get_reg r.rs2)
  if rhs = 0 then
    return (← emu.set_reg r.rd (toU64 (-1)))
  emu.set_reg r.rd (toU64 (wrappingDiv64 lhs rhs))

/-- The `divu` handler: operands as `u64`; divisor `0` writes `u64::MAX`;
otherwise unsigned division. -/
def divu_execute (emu : Emulator) (inst _pc : Nat) : Except StateError Emulator := do
  let r := parse_format_r inst
  let lhs ← emu.get_reg r.rs1
  let rhs ← emu.get_reg r.rs2
  if rhs = 0 then
    return (← emu.set_reg r.rd U64_MAX)
  emu.set_reg r.rd (lhs / rhs)

/-- The `rem` handler: operands as `i64`; divisor `0` writes the dividend
(`lhs as u64`); otherwise `wrapping_rem`. -/
def rem_execute (emu : Emulator) (inst _pc : Nat) : Except StateError Emulator := do
  let r := parse_format_r inst
  let lhs := toI64 (← emu.get_reg r.rs1)
  let rhs := toI64 (← emu.get_reg r.rs2)
  if rhs = 0 then
    return (← emu.set_reg r.rd (toU64 lhs))
  emu.set_reg r.rd (toU64 (wrappingRem64 lhs rhs))

/-- The `remu` handler: operands as `u64`; divisor `0` writes the dividend;
otherwise the unsigned remainder. -/
def remu_execute (emu : Emulator) (inst _pc : Nat) : Except StateError Emulator := do
  let r := parse_format_r inst
  let lhs ← emu.get_reg r.rs1
  let rhs ← emu.get_reg r.rs2
  if rhs = 0 then
    return (← emu.set_reg r.rd lhs)
  emu.set_reg r.rd (lhs % rhs)

/-- The `divw` handler: low 32 bits of each operand as `i32`; divisor `0`
writes `-1i64 as u64`; otherwise the 32-bit quotient sign-extended. -/
def divw_execute (emu : Emulator) (inst _pc : Nat) : Except StateError Emulator := do
  let r := parse_format_r inst
  let lhs := toI32 (bit_range64 (← emu.get_reg r.rs1) 0 32)
  let rhs := toI32 (bit_range64 (← emu.get_reg r.rs2) 0 32)
  if rhs = 0 then
    return (← emu.set_reg r.rd (toU64 (-1)))
  emu.set_reg r.rd (toU64 (wrappingDiv32 lhs rhs))

/-- The `divuw` handler: low 32 bits of each operand as `u32`; divisor `0`
writes `u64::MAX`; otherwise the 32-bit unsigned quotient, cast
`as i32 as i64 as u64` (sign-extended). -/
def divuw_execute (emu : Emulator) (inst _pc : Nat) : Except StateError Emulator := do
  let r := parse_format_r inst
  let lhs := bit_range64 (← emu.get_reg r.rs1) 0 32
  let rhs := bit_range64 (← emu.get_reg r.rs2) 0 32
  if rhs = 0 then
    return (← emu.set_reg r.rd U64_MAX)
  emu.set_reg r.rd (toU64 (toI32 (lhs / rhs)))

/-- The `remw` handler: low 32 bits of each operand as `i32`; divisor `0`
writes `rhs as i64 as u64` — i.e. `0`, the divisor, not the dividend —
otherwise the 32-bit remainder sign-extended. -/
def remw_execute (emu : Emulator) (inst _pc : Nat) : Except StateError Emulator := do
  let r := parse_format_r inst
  let lhs := toI32 (bit_range64 (← emu.get_reg r.rs1) 0 32)
  let rhs := toI32 (bit_range64 (← emu.get_reg r.rs2) 0 32)
  if rhs = 0 then
    return (← emu.set_reg r.rd (toU64 rhs))
  emu.set_reg r.rd (toU64 (wrappingRem64 lhs rhs))

/-- The `remuw` handler: low 32 bits of each operand as `u32`; divisor `0`
writes `rhs as i32 as i64 as u64` — i.e. `0`, the divisor, not the
dividend — otherwise the 32-bit unsigned remainder, sign-extended. -/
def remuw_execute (emu : Emulator) (inst _pc : Nat) : Except StateError Emulator := do
  let r := parse_format_r inst
  let lhs := bit_range64 (← emu.get_reg r.rs1) 0 32
  let rhs := bit_range64 (← emu.get_reg r.rs2) 0 32
  if rhs = 0 then
    return (← emu.set_reg r.rd (toU64 (toI32 rhs)))
  emu.set_reg r.rd (toU64 (toI32 (lhs % rhs)))

/-! ## Instruction decoder (`src/emulator/src/emulator/instructions/mod.rs`)

An `Instruction` descriptor is `{mask, identifier, name, execute}`; the
`execute` handler function is represented in this development by the
standalone `*_execute` definitions above, keyed by the descriptor's name,
so the descriptor record here carries the `mask`/`identifier`/`name`
triple.  The numeric mask/match constants come from `mod insts`
(`insts.rs`), which is not among the provided sources; they are modelled
from the spec's "standard RV64 encodings" as the standard RISC-V
mask/match values. -/

structure Instruction where
  mask : Nat
  identifier : Nat
  name : String
  deriving Repr, DecidableEq

/-- The RV64I descriptor table `RV_I` of `rv64i.rs`, in source order. -/
def RV_I : List Instruction := [
  ⟨0x0000007f, 0x00000037, "lui"⟩,
  ⟨0x0000007f, 0x00000017, "auipc"⟩,
  ⟨0x0000007f, 0x0000006f, "jal"⟩,
  ⟨0x0000707f, 0x00000067, "jalr"⟩,
  ⟨0x0000707f, 0x00000063, "beq"⟩,
  ⟨0x0000707f, 0x00001063, "bne"⟩,
  ⟨0x0000707f, 0x00004063, "blt"⟩,
  ⟨0x0000707f, 0x00005063, "bge"⟩,
  ⟨0x0000707f, 0x00006063, "bltu"⟩,
  ⟨0x0000707f, 0x00007063, "bgeu"⟩,
  ⟨0x0000707f, 0x00000003, "lb"⟩,
  ⟨0x0000707f, 0x00001003, "lh"⟩,
  ⟨0x0000707f, 0x00002003, "lw"⟩,
  ⟨0x0000707f, 0x00004003, "lbu"⟩,
  ⟨0x0000707f, 0x00005003, "lhu"⟩,
  ⟨0x0000707f, 0x00000023, "sb"⟩,
  ⟨0x0000707f, 0x00001023, "sh"⟩,
  ⟨0x0000707f, 0x00002023, "sw"⟩,
  ⟨0x0000707f, 0x00000013, "addi"⟩,
  ⟨0x0000707f, 0x00002013, "slti"⟩,
  ⟨0x0000707f, 0x00003013, "sltiu"⟩,
  ⟨0x0000707f, 0x00004013, "xori"⟩,
  ⟨0x0000707f, 0x00006013, "ori"⟩,
  ⟨0x0000707f, 0x00007013, "andi"⟩,
  ⟨0xfc00707f, 0x00001013, "slli"⟩,
  ⟨0xfc00707f, 0x00005013, "srli"⟩,
  ⟨0xfc00707f, 0x40005013, "srai"⟩,
  ⟨0xfe00707f, 0x00000033, "add"⟩,
  ⟨0xfe00707f, 0x40000033, "sub"⟩,
  ⟨0xfe00707f, 0x00001033, "sll"⟩,
  ⟨0xfe00707f, 0x00002033, "slt"⟩,
  ⟨0xfe00707f, 0x00003033, "sltu"⟩,
  ⟨0xfe00707f, 0x00004033, "xor"⟩,
  ⟨0xfe00707f, 0x00005033, "srl"⟩,
  ⟨0xfe00707f, 0x40005033, "sra"⟩,
  ⟨0xfe00707f, 0x00006033, "or"⟩,
  ⟨0xfe00707f, 0x00007033, "and"⟩,
  ⟨0x0000707f, 0x0000000f, "fence"⟩,
  ⟨0xffffffff, 0x00000073, "ecall"⟩,
  ⟨0xffffffff, 0x00100073, "ebreak"⟩,
  ⟨0x0000707f, 0x0000001b, "addiw"⟩,
  ⟨0xfe00707f, 0x0000101b, "slliw"⟩,
  ⟨0xfe00707f, 0x0000501b, "srliw"⟩,
  ⟨0xfe00707f, 0x4000501b, "sraiw"⟩,
  ⟨0xfe00707f, 0x0000003b, "addw"⟩,
  ⟨0xfe00707f, 0x4000003b, "subw"⟩,
  ⟨0xfe00707f, 0x0000103b, "sllw"⟩,
  ⟨0xfe00707f, 0x0000503b, "srlw"⟩,
  ⟨0xfe00707f, 0x4000503b, "sraw"⟩,
  ⟨0x0000707f, 0x00003003, "ld"⟩,
  ⟨0x0000707f, 0x00006003, "lwu"⟩,
  ⟨0x0000707f, 0x00003023, "sd"⟩]

/-- The RV64M descriptor table `RV_M` of `rv64m.rs`, in source order. -/
def RV_M : List Instruction := [
  ⟨0xfe00707f, 0x02000033, "mul"⟩,
  ⟨0xfe00707f, 0x02001033, "mulh"⟩,
  ⟨0xfe00707f, 0x02002033, "mulhsu"⟩,
  ⟨0xfe00707f, 0x02003033, "mulhu"⟩,
  ⟨0xfe00707f, 0x02004033, "div"⟩,
  ⟨0xfe00707f, 0x02005033, "divu"⟩,
  ⟨0xfe00707f, 0x02006033, "rem"⟩,
  ⟨0xfe00707f, 0x02007033, "remu"⟩,
  ⟨0xfe00707f, 0x0200003b, "mulw"⟩,
  ⟨0xfe00707f, 0x0200403b, "divw"⟩,
  ⟨0xfe00707f, 0x0200503b, "divuw"⟩,
  ⟨0xfe00707f, 0x0200603b, "remw"⟩,
  ⟨0xfe00707f, 0x0200703b, "remuw"⟩]

/-- The RV64A placeholder table `RV_A` of `rv64a.rs`: a single entry
reusing the `mul` mask/match pair with a `todo!` handler. -/
def RV_A : List Instruction := [⟨0xfe00707f, 0x02000033, "todo!"⟩]

/-- `MASK_OPCODE`. -/
def MASK_OPCODE : Nat := 0x7F

/-- `is_compressed`: `inst & 0b11 != 0b11`. -/
def is_compressed (inst : Nat) : Bool := inst &&& 0b11 != 0b11

/-- One step of building `opcode_map`: `opcode_map.entry(opcode)
.or_default().push(inst)` on the association list. -/
def opcodeMapPush (map : List (Nat × List Instruction)) (opcode : Nat)
    (inst : Instruction) : List (Nat × List Instruction) :=
  match map with
  | [] => [(opcode, [inst])]
  | (k, v) :: rest =>
    if k = opcode then (k, v ++ [inst]) :: rest
    else (k, v) :: opcodeMapPush rest opcode inst

/-- Decode failures: the two `anyhow!` errors, the cache-miss error of
`fast_path`, and the `panic!` taken when `opcode_map` is inconsistent with
`instructions_set`. -/
inductive DecodeError where
  | CompressedNotFound
  | NotFound (inst : Nat)
  | NotFoundInCache
  | BucketPanic (inst : Nat)
  deriving Repr, DecidableEq

/-- The decoder: LRU cache (capacity and entries; `LruCache::get` only
reorders recency, which is unobservable since nothing in the source ever
inserts into the cache), flat instruction table, compressed table, and the
opcode-bucketed map. -/
structure InstDecoder where
  cacheCapacity : Nat
  cacheEntries : List (Nat × Instruction)
  instructions_set : List Instruction
  compressed_instructions : List Instruction
  opcode_map : List (Nat × List Instruction)

/-- `InstDecoder::new`: empty cache of the configured capacity
(`const_values::DECODER_LRU_CACHE_SIZE`, not among the provided sources;
the configuration key `others.decoder_cache_size` sets it, e.g. 1024),
`RV_I` always, `RV_M`/`RV_A` by configuration (`enable_c` would hit a
`todo!` and is not modelled), then the opcode grouping pass. -/
def InstDecoder.new (cacheSize : Nat) (enable_m enable_a : Bool) : InstDecoder :=
  let instructions_set :=
    RV_I ++ (if enable_m then RV_M else []) ++ (if enable_a then RV_A else [])
  { cacheCapacity := cacheSize
    cacheEntries := []
    instructions_set := instructions_set
    compressed_instructions := []
    opcode_map := instructions_set.foldl
      (fun map inst => opcodeMapPush map (inst.identifier &&& MASK_OPCODE) inst) [] }

/-- `InstDecoder::cache_has_capacity`: `cache.capacity() != 0`. -/
def InstDecoder.cache_has_capacity (d : InstDecoder) : Bool :=
  d.cacheCapacity != 0

/-- `InstDecoder::slow_path`: compressed instructions search the compressed
table; otherwise look up bucket `inst & 0x7F` and take the first descriptor
with `(inst & mask) == identifier`; on a bucket miss, a hit in the full
table is the `panic!` case, and a miss in both is `InstructionNotFound`. -/
def InstDecoder.slow_path (d : InstDecoder) (inst : Nat) :
    Except DecodeError Instruction :=
  if is_compressed inst then
    match d.compressed_instructions.find? (fun x => x.mask &&& inst == x.identifier) with
    | some x => .ok x
    | none => .error .CompressedNotFound
  else
    let opcode := inst &&& MASK_OPCODE
    let maybe_instruction := (d.opcode_map.lookup opcode).bind fun instructions =>
      instructions.find? (fun x => x.mask &&& inst == x.identifier)
    match maybe_instruction with
    | some instruction => .ok instruction
    | none =>
      if d.instructions_set.any (fun x => x.mask &&& inst == x.identifier) then
        .error (.BucketPanic inst)
      else
        .error (.NotFound inst)

/-- `InstDecoder::fast_path`: compressed instructions and a zero-capacity
cache delegate to `slow_path`; otherwise the result is `cache.get(&inst)`,
a miss being the error "Instruction not found in cache" — there is no
fallback to `slow_path` and no insertion into the cache anywhere. -/
def InstDecoder.fast_path (d : InstDecoder) (inst : Nat) :
    Except DecodeError Instruction :=
  if is_compressed inst || !d.cache_has_capacity then
    d.slow_path inst
  else
    match d.cacheEntries.lookup inst with
    | some x => .ok x
    | none => .error .NotFoundInCache

/-! ## Event ring buffer (`src/src/utils/ringbuf.rs`) -/

inductive RingBufferError where
  | Full
  | Empty
  deriving Repr, DecidableEq

/-- `RingBuffer<T>`: backing vector, read and write cursors, full flag. -/
structure RingBuffer (α : Type) where
  buf : List α
  read : Nat
  write : Nat
  full : Bool
  deriving Repr

/-- `RingBuffer::new(size)`: `vec![T::default(); size]`, cursors at 0. -/
def RingBuffer.new (size : Nat) (dflt : α) : RingBuffer α :=
  { buf := List.replicate size dflt, read := 0, write := 0, full := false }

/-- `RingBuffer::is_empty`: `!full && read == write`. -/
def RingBuffer.is_empty (rb : RingBuffer α) : Bool :=
  !rb.full && rb.read == rb.write

/-- `RingBuffer::is_full`. -/
def RingBuffer.is_full (rb : RingBuffer α) : Bool := rb.full

/-- `RingBuffer::capacity`: `buf.len()`. -/
def RingBuffer.capacity (rb : RingBuffer α) : Nat := rb.buf.length

/-- `RingBuffer::len`. -/
def RingBuffer.len (rb : RingBuffer α) : Nat :=
  if rb.full then rb.buf.length
  else (rb.write + rb.buf.length - rb.read) % rb.buf.length

/-- `RingBuffer::push_overwrite`: store at `write`, advance `write`; when
full, drag `read` along (dropping the oldest); when `write` catches `read`,
become full.  (`self.buf[self.write] = item` indexes in range for every
state reachable from `new` with nonzero capacity; `List.set` models it.) -/
def RingBuffer.push_overwrite (rb : RingBuffer α) (item : α) : RingBuffer α :=
  let buf := rb.buf.set rb.write item
  let write := (rb.write + 1) % buf.length
  if rb.full then
    { buf := buf, read := write, write := write, full := rb.full }
  else if write == rb.read then
    { buf := buf, read := rb.read, write := write, full := true }
  else
    { buf := buf, read := rb.read, write := write, full := rb.full }

/-- `RingBuffer::pop`: `Empty` when empty, otherwise take `buf[read]`,
advance `read`, clear `full`.  (`self.buf[self.read]` indexes in range for
every reachable state; `getD` with the `Inhabited` default models it.) -/
def RingBuffer.pop [Inhabited α] (rb : RingBuffer α) :
    Except RingBufferError (α × RingBuffer α) :=
  if rb.is_empty then
    .error .Empty
  else
    .ok (rb.buf.getD rb.read default,
      { rb with read := (rb.read + 1) % rb.buf.length, full := false })

/-- A whole sequence of `push_overwrite` calls. -/
def RingBuffer.pushAll (rb : RingBuffer α) (xs : List α) : RingBuffer α :=
  xs.foldl RingBuffer.push_overwrite rb

/-- Pop up to `fuel` items, stopping at the first `Empty` error. -/
def RingBuffer.drain [Inhabited α] (fuel : Nat) (rb : RingBuffer α) : List α :=
  match fuel with
  | 0 => []
  | n + 1 =>
    match rb.pop with
    | .error _ => []
    | .ok (x, rb') => x :: RingBuffer.drain n rb'

/-! ## Helper functions and lemmas for the theorems -/

/-- The value a successful `get_reg` returns: 0 for `x0`, the stored value
otherwise. -/
def readReg (s : State) (reg : Nat) : Nat :=
  if reg = 0 then 0 else s.registers.getD reg 0

/-- The state a successful `set_reg` leaves: unchanged for `x0`, the
register updated otherwise. -/
def writeReg (s : State) (reg v : Nat) : State :=
  if reg = 0 then s
  else { s with registers := s.registers.set reg v,
                hlen := by rw [List.length_set]; exact s.hlen }

theorem get_reg_lt (s : State) (reg : Nat) (h : reg < 32) :
    s.get_reg reg = .ok (readReg s reg) := by
  unfold State.get_reg readReg
  rw [s.hlen]
  simp only [Nat.not_le.mpr h, ge_iff_le, if_false]
  split <;> rfl

theorem set_reg_lt (s : State) (reg v : Nat) (h : reg < 32) :
    s.set_reg reg v = .ok (writeReg s reg v) := by
  unfold State.set_reg writeReg
  simp only [s.hlen]
  split
  · omega
  · split <;> rfl

theorem emu_get_reg_lt (emu : Emulator) (reg : Nat) (h : reg < 32) :
    emu.get_reg reg = .ok (readReg emu.state reg) := by
  unfold Emulator.get_reg
  rw [get_reg_lt _ _ h]

theorem emu_set_reg_lt (emu : Emulator) (reg v : Nat) (h : reg < 32) :
    emu.set_reg reg v = .ok { emu with state := writeReg emu.state reg v } := by
  unfold Emulator.set_reg
  rw [set_reg_lt _ _ _ h]

/-- An extracted bit field `(v &&& mask) >>> lo` is bounded by any bound on
`mask >>> lo`. -/
theorem bitfield_le (v mask lo : Nat) : (v &&& mask) >>> lo ≤ mask >>> lo := by
  rw [Nat.shiftRight_eq_div_pow, Nat.shiftRight_eq_div_pow]
  exact Nat.div_le_div_right Nat.and_le_right

theorem bit_range32_rs1_lt (inst : Nat) : bit_range32 inst 15 20 < 32 := by
  unfold bit_range32
  have h := bitfield_le inst ((1 <<< 20) - 1) 15
  norm_num at h ⊢
  omega

theorem bit_range32_rs2_lt (inst : Nat) : bit_range32 inst 20 25 < 32 := by
  unfold bit_range32
  have h := bitfield_le inst ((1 <<< 25) - 1) 20
  norm_num at h ⊢
  omega

theorem bit_range32_rd_lt (inst : Nat) : bit_range32 inst 7 12 < 32 := by
  unfold bit_range32
  have h := bitfield_le inst ((1 <<< 12) - 1) 7
  norm_num at h ⊢
  omega

/-! ## Claim C7 — the hardwired zero register -/

/-- C7: in every state, reading `x0` through `get_reg` returns 0, and
`set_reg(0, v)` leaves the entire register file (indeed the entire state)
unchanged and returns success. -/
theorem C7_x0_hardwired (s : State) (v : Nat) :
    s.get_reg 0 = .ok 0 ∧ s.set_reg 0 v = .ok s := by
  constructor
  · unfold State.get_reg
    rw [s.hlen]
    norm_num
  · unfold State.set_reg
    simp only [s.hlen]
    norm_num

/-! ## Claim C5 — Timer writes always fail -/

/-- Whether a device write outcome is a failure of the `Unsupported` kind. -/
def isUnsupportedError : Except DeviceError Unit → Bool
  | .error (.Unsupported _) => true
  | _ => false

/-- C5 counterexample: the claim says every Timer write fails with the
`Unsupported` error kind, but at offset `0x10` (outside the register map)
the write fails with the `Access` error kind instead (and does not
succeed). -/
theorem C5_counterexample :
    (Timer.write (Timer.new "timer") 0x10 [0]).1 = .error (.Access 0x10) ∧
    isUnsupportedError (Timer.write (Timer.new "timer") 0x10 [0]).1 = false ∧
    (Timer.write (Timer.new "timer") 0x10 [0]).1 ≠ .ok () := by
  refine ⟨rfl, rfl, ?_⟩
  intro h
  simpa [Timer.write, CNT0_REG, CNT1_REG, CNT2_REG, CTRL_REG] using h

/-- C5 amended: no Timer write at any offset and any data ever succeeds,
and the device is left unchanged; writes to the four mapped register
offsets `0x00`/`0x04`/`0x08`/`0x0C` fail with the `Unsupported` error
kind, and writes to every other offset fail with the `Access` error
kind. -/
theorem C5_timer_write_never_succeeds (t : Timer) (offset : Nat) (data : List Nat) :
    (Timer.write t offset data).2 = t ∧
    (Timer.write t offset data).1 ≠ .ok () ∧
    ((∃ msg, (Timer.write t offset data).1 = .error (.Unsupported msg)) ↔
      (offset = 0x00 ∨ offset = 0x04 ∨ offset = 0x08 ∨ offset = 0x0c)) ∧
    ((Timer.write t offset data).1 = .error (.Access offset) ↔
      ¬(offset = 0x00 ∨ offset = 0x04 ∨ offset = 0x08 ∨ offset = 0x0c)) := by
  unfold Timer.write CNT0_REG CNT1_REG CNT2_REG CTRL_REG
  split
  · next hcond => simp_all
  · next hcond => simp_all

/-! ## Claim C2 — M-extension division by zero -/

/-- A register file with `x5 = 42`, `x6 = 0`, `x7 = 99`, `x8 = 99`. -/
def regsC2 : List Nat :=
  [0, 0, 0, 0, 0, 42, 0, 99, 99, 0, 0, 0, 0, 0, 0, 0,
   0, 0, 0, 0, 0, 0, 0, 0, 0, 0, 0, 0, 0, 0, 0, 0]

/-- A concrete emulator state for the divide-by-zero scenarios. -/
def emuC2 : Emulator :=
  { state := { registers := regsC2, hlen := rfl, pc := 0x80000000, npc := 0x80000000 }
    event := .None
    execption := none }

/-- C2, evaluated at the failing input: with `x5 = 42` (dividend) and
`x6 = 0` (divisor), `divu x7, x5, x6` does yield all-ones and
`remu x8, x5, x6` does yield the dividend 42, as the claim states — but
`remw x7, x5, x6` and `remuw x7, x5, x6` yield 0 (the handlers write the
divisor `rhs` instead of the dividend on the zero-divisor path),
contradicting the claim, the RISC-V rule, and the comment table in
`rv64m.rs` itself.  Instruction words: `divu` = 0x0262D3B3,
`remu` = 0x0262F433, `remw` = 0x0262E3BB, `remuw` = 0x0262F3BB. -/
theorem C2_remw_divide_by_zero_bug :
    (divu_execute emuC2 0x0262D3B3 0x80000000).map (fun e => e.get_reg 7)
      = .ok (.ok 0xFFFFFFFFFFFFFFFF) ∧
    (remu_execute emuC2 0x0262F433 0x80000000).map (fun e => e.get_reg 8)
      = .ok (.ok 42) ∧
    (remw_execute emuC2 0x0262E3BB 0x80000000).map (fun e => e.get_reg 7)
      = .ok (.ok 0) ∧
    (remuw_execute emuC2 0x0262F3BB 0x80000000).map (fun e => e.get_reg 7)
      = .ok (.ok 0) := by
  refine ⟨?_, ?_, ?_, ?_⟩ <;> rfl

/-! ## Claim C1 — the decoder's hot-path cache -/

/-- C1, evaluated at the failing input: on a freshly constructed decoder
with a nonzero cache capacity (1024, the configured size), the uncached
lookup `slow_path` decodes the valid instruction word `0x00000013`
(`addi x0, x0, 0`) to the `addi` descriptor, but `fast_path` on the very
same word fails with the cache-miss error: `fast_path` consults only the
LRU cache, which nothing in the source ever populates, and has no
fallback to `slow_path`, so the cached fast path does not match the
uncached decoder. -/
theorem C1_fast_path_not_transparent :
    (InstDecoder.new 1024 false false).slow_path 0x00000013
      = .ok ⟨0x0000707f, 0x00000013, "addi"⟩ ∧
    (InstDecoder.new 1024 false false).fast_path 0x00000013
      = .error .NotFoundInCache ∧
    (InstDecoder.new 1024 false false).cache_has_capacity = true := by
  refine ⟨?_, ?_, ?_⟩ <;> rfl

/-! ## Claim C3 — JAL/JALR link-register discipline -/

/-- A register file with `x1 = 2` and `x2 = 99`. -/
def regsC3 : List Nat :=
  [0, 2, 99, 0, 0, 0, 0, 0, 0, 0, 0, 0, 0, 0, 0, 0,
   0, 0, 0, 0, 0, 0, 0, 0, 0, 0, 0, 0, 0, 0, 0, 0]

/-- A concrete emulator state for the JALR scenario: `pc = 0x80000000`,
`npc` pre-set to `pc + 4` as the loop does. -/
def emuC3 : Emulator :=
  { state := { registers := regsC3, hlen := rfl, pc := 0x80000000, npc := 0x80000004 }
    event := .None
    execption := none }

/-- C3 counterexample: `jalr x2, 0(x1)` (word `0x8167`) with `x1 = 2`
computes the misaligned target `2`; the handler records the pending
exception and returns success, but `rd = x2` keeps its old value `99`
instead of receiving the link `pc + 4 = 0x80000004` — so the claim that
the handler "writes pc + 4 into rd before retargeting (so rd receives the
link value even when the computed target turns out misaligned)" is false
for JALR. -/
theorem C3_counterexample :
    (jalr_execute emuC3 0x8167 0x80000000).map
        (fun e => (readReg e.state 2, e.state.npc, e.execption))
      = .ok (99, 0x80000004, some (.InstructionAddressMisaligned 2)) ∧
    (99 : Nat) ≠ (0x80000000 + 4) % 2 ^ 64 := by
  refine ⟨rfl, by norm_num⟩

/-- C3 amended: `JAL` writes the link `pc + 4` into `rd` before
retargeting, so `rd` receives the link even when the target is misaligned
(in which case the pending exception is recorded and `npc` stays).  `JALR`
computes its target from the old `rs1` value (so `rs1 == rd` uses the
pre-link value), masks the target's low bit to zero, then applies the
misalignment check; on a misaligned target it records the pending
exception and returns success **without writing `rd`**; otherwise it
writes `npc := target` and only then the link `pc + 4` into `rd`. -/
theorem C3_jal_jalr_link (emu : Emulator) (inst pc : Nat) :
    ((is_inst_addr_misaligned ((pc + (parse_format_j inst).imm) % 2 ^ 64) = true →
       jal_execute emu inst pc =
         .ok { emu with
               state := writeReg emu.state (parse_format_j inst).rd ((pc + 4) % 2 ^ 64)
               execption := some (.InstructionAddressMisaligned
                 ((pc + (parse_format_j inst).imm) % 2 ^ 64)) }) ∧
     (is_inst_addr_misaligned ((pc + (parse_format_j inst).imm) % 2 ^ 64) = false →
       jal_execute emu inst pc =
         .ok { emu with
               state := (writeReg emu.state (parse_format_j inst).rd
                   ((pc + 4) % 2 ^ 64)).set_npc
                 ((pc + (parse_format_j inst).imm) % 2 ^ 64) })) ∧
    ((is_inst_addr_misaligned
        (((readReg emu.state (parse_format_i inst).rs1 + (parse_format_i inst).imm)
          % 2 ^ 64) &&& (2 ^ 64 - 2)) = true →
       jalr_execute emu inst pc =
         .ok { emu with
               execption := some (.InstructionAddressMisaligned
                 (((readReg emu.state (parse_format_i inst).rs1 +
                    (parse_format_i inst).imm) % 2 ^ 64) &&& (2 ^ 64 - 2))) }) ∧
     (is_inst_addr_misaligned
        (((readReg emu.state (parse_format_i inst).rs1 + (parse_format_i inst).imm)
          % 2 ^ 64) &&& (2 ^ 64 - 2)) = false →
       jalr_execute emu inst pc =
         .ok { emu with
               state := writeReg
                 (emu.state.set_npc
                   (((readReg emu.state (parse_format_i inst).rs1 +
                      (parse_format_i inst).imm) % 2 ^ 64) &&& (2 ^ 64 - 2)))
                 (parse_format_i inst).rd ((pc + 4) % 2 ^ 64) })) := by
  refine ⟨⟨?_, ?_⟩, ?_, ?_⟩
  · intro h
    have hs : emu.set_reg (parse_format_j inst).rd ((pc + 4) % 2 ^ 64)
        = .ok { emu with
                state := writeReg emu.state (parse_format_j inst).rd ((pc + 4) % 2 ^ 64) } :=
      emu_set_reg_lt _ _ _ (bit_range32_rd_lt inst)
    unfold jal_execute
    simp only [hs, h, bind, Except.bind, if_true, pure, Except.pure]
  · intro h
    have hs : emu.set_reg (parse_format_j inst).rd ((pc + 4) % 2 ^ 64)
        = .ok { emu with
                state := writeReg emu.state (parse_format_j inst).rd ((pc + 4) % 2 ^ 64) } :=
      emu_set_reg_lt _ _ _ (bit_range32_rd_lt inst)
    unfold jal_execute
    simp only [hs, h, bind, Except.bind, Bool.false_eq_true, if_false, pure, Except.pure,
               Emulator.set_pc, Emulator.set_npc]
  · intro h
    have hg : emu.get_reg (parse_format_i inst).rs1
        = .ok (readReg emu.state (parse_format_i inst).rs1) :=
      emu_get_reg_lt _ _ (bit_range32_rs1_lt inst)
    unfold jalr_execute
    simp only [hg, h, bind, Except.bind, if_true, pure, Except.pure]
  · intro h
    have hg : emu.get_reg (parse_format_i inst).rs1
        = .ok (readReg emu.state (parse_format_i inst).rs1) :=
      emu_get_reg_lt _ _ (bit_range32_rs1_lt inst)
    have hs : ∀ e : Emulator, e.set_reg (parse_format_i inst).rd ((pc + 4) % 2 ^ 64)
        = .ok { e with state := writeReg e.state (parse_format_i inst).rd ((pc + 4) % 2 ^ 64) } :=
      fun e => emu_set_reg_lt _ _ _ (bit_range32_rd_lt inst)
    unfold jalr_execute
    simp only [hg, h, bind, Except.bind, Bool.false_eq_true, if_false, pure, Except.pure,
               Emulator.set_pc, Emulator.set_npc, hs]

/-- Witness for `C3_jal_jalr_link`: `jal x0, 0` at `pc = 0x80000000`
retargets `npc` to the (aligned) target, and `jalr x2, 0(x1)` with
`x1 = 2` hits the misaligned-target case, recording the pending exception
and leaving the registers and `npc` untouched. -/
theorem C3_jal_jalr_link_witness :
    jal_execute emuC3 0x0000006F 0x80000000
      = .ok { emuC3 with state := emuC3.state.set_npc 0x80000000 } ∧
    jalr_execute emuC3 0x8167 0x80000000
      = .ok { emuC3 with execption := some (.InstructionAddressMisaligned 2) } := by
  refine ⟨?_, ?_⟩
  · exact (C3_jal_jalr_link emuC3 0x0000006F 0x80000000).1.2 (by rfl)
  · exact (C3_jal_jalr_link emuC3 0x8167 0x80000000).2.1 (by rfl)

/-! ## Claim C4 — taken branches to misaligned targets -/

/-- C4: for every taken conditional branch (any of the six comparisons)
whose target `pc + sign_extended_immediate` has a nonzero value in its low
two bits, the handler records `InstructionAddressMisaligned` carrying the
target in the pending-exception slot and returns success, leaving the rest
of the emulator — in particular `npc`, pre-set by the loop to `pc + 4`,
and `pc` — unchanged, so the step does not move the PC to the misaligned
target. -/
theorem C4_branch_misaligned_target (cmp : Nat → Nat → Bool) (emu : Emulator)
    (inst pc : Nat)
    (hnpc : emu.state.npc = (pc + 4) % 2 ^ 64)
    (htaken : cmp (readReg emu.state (parse_format_b inst).rs1)
                  (readReg emu.state (parse_format_b inst).rs2) = true)
    (hmis : is_inst_addr_misaligned ((pc + (parse_format_b inst).imm) % 2 ^ 64) = true) :
    branch_execute cmp emu inst pc
      = .ok { emu with execption := some (.InstructionAddressMisaligned
          ((pc + (parse_format_b inst).imm) % 2 ^ 64)) } ∧
    ({ emu with execption := some (.InstructionAddressMisaligned
          ((pc + (parse_format_b inst).imm) % 2 ^ 64)) } : Emulator).state.npc
        = (pc + 4) % 2 ^ 64 ∧
    ({ emu with execption := some (.InstructionAddressMisaligned
          ((pc + (parse_format_b inst).imm) % 2 ^ 64)) } : Emulator).state.pc
        = emu.state.pc := by
  have hg1 : emu.get_reg (parse_format_b inst).rs1
      = .ok (readReg emu.state (parse_format_b inst).rs1) :=
    emu_get_reg_lt _ _ (bit_range32_rs1_lt inst)
  have hg2 : emu.get_reg (parse_format_b inst).rs2
      = .ok (readReg emu.state (parse_format_b inst).rs2) :=
    emu_get_reg_lt _ _ (bit_range32_rs2_lt inst)
  refine ⟨?_, hnpc, rfl⟩
  unfold branch_execute
  simp only [hg1, hg2, htaken, hmis, bind, Except.bind, if_true, pure, Except.pure]

/-- Witness for `C4_branch_misaligned_target`: scenario B of the spec —
`beq x0, x0, +6` (word `0x363`) at `pc = 0x80000000` is taken, its target
`0x80000006` has bit 1 set, and the handler records the pending exception
while `npc` stays at `0x80000004`. -/
theorem C4_branch_misaligned_target_witness :
    branch_execute (fun lhs rhs => lhs == rhs) emuC3 0x363 0x80000000
      = .ok { emuC3 with
              execption := some (.InstructionAddressMisaligned 0x80000006) } ∧
    (0x80000006 : Nat) &&& 0b11 ≠ 0 := by
  refine ⟨?_, by decide⟩
  exact (C4_branch_misaligned_target (fun lhs rhs => lhs == rhs) emuC3 0x363 0x80000000
    (by rfl) (by rfl) (by rfl)).1

/-! ## Claim C10 — bus writes are atomic on failure -/

/-- C10: whenever `Memory::write` returns an error — a bounds-check
failure on any size path, a device error, or an address matching nothing —
the RAM buffer is byte-for-byte unchanged: every check happens before any
byte is stored. -/
theorem C10_write_atomic_on_failure {δ : Type} (ops : DeviceOps δ) (m : Memory δ)
    (addr : Nat) (data : List Nat) (e : MemoryError) :
    (Memory.write ops m addr data).1 = .error e →
    (Memory.write ops m addr data).2.data = m.data := by
  unfold Memory.write
  split
  · split
    · split
      · intro _; rfl
      · intro h; exact absurd h (by simp)
    · split
      · intro _; rfl
      · intro h; exact absurd h (by simp)
  · split
    · simp only []
      split
      · intro _; rfl
      · intro h; exact absurd h (by simp)
    · intro _; rfl

/-- A trivial device-operation record for concrete instantiations. -/
def unitOps : DeviceOps Unit :=
  { read := fun d _ _ => (.error (.Internal "unit"), d)
    write := fun d _ _ => (.error (.Internal "unit"), d) }

/-- A tiny concrete bus: 4 bytes of RAM at `0x1000`, no MMIO regions. -/
def memC10 : Memory Unit :=
  { data := List.replicate 4 0
    memory_base := 0x1000
    memory_size := 4
    mmio_regions := []
    is_last_mmio := false }

/-- Witness for `C10_write_atomic_on_failure`: a 4-byte write at `0x1002`
overruns the 4-byte RAM window `[0x1000, 0x1004)`, fails with
`OutOfBounds`, and leaves the RAM buffer unchanged. -/
theorem C10_write_atomic_on_failure_witness :
    (Memory.write unitOps memC10 0x1002 [1, 2, 3, 4]).1
      = .error (.OutOfBounds 0x1002 4) ∧
    (Memory.write unitOps memC10 0x1002 [1, 2, 3, 4]).2.data = memC10.data := by
  refine ⟨by rfl, ?_⟩
  exact C10_write_atomic_on_failure unitOps memC10 0x1002 [1, 2, 3, 4]
    (.OutOfBounds 0x1002 4) (by rfl)

/-! ## Claim C9 — RAM write/read round-trip -/

/-- `u64::to_le_bytes` truncated to its first `n` bytes: the little-endian
byte serialisation the bus callers hand to `Memory::write`. -/
def leBytes : Nat → Nat → List Nat
  | 0, _ => []
  | n + 1, v => v % 256 :: leBytes n (v / 256)

theorem leBytes_length (n v : Nat) : (leBytes n v).length = n := by
  induction n generalizing v with
  | zero => rfl
  | succ k ih => simp [leBytes, ih]

theorem leBytes_mod (n v : Nat) : leBytes n (v % 2 ^ (8 * n)) = leBytes n v := by
  induction n generalizing v with
  | zero => rfl
  | succ k ih =>
    have hpow : (2 : Nat) ^ (8 * (k + 1)) = 256 * 2 ^ (8 * k) := by
      rw [Nat.mul_succ, pow_add]; ring
    unfold leBytes
    congr 1
    · exact Nat.mod_mod_of_dvd v ⟨2 ^ (8 * k), hpow⟩
    · rw [hpow, Nat.mod_mul_right_div_self]
      exact ih (v / 256)

theorem storeBytes_length (bs d : List Nat) (pos : Nat) :
    (storeBytes d pos bs).length = d.length := by
  induction bs generalizing d pos with
  | nil => rfl
  | cons b bs ih => rw [storeBytes, ih, List.length_set]

theorem storeBytes_getD_lt (bs d : List Nat) (pos i : Nat) (h : i < pos) :
    (storeBytes d pos bs).getD i 0 = d.getD i 0 := by
  induction bs generalizing d pos with
  | nil => rfl
  | cons b bs ih =>
    rw [storeBytes]
    rw [ih (d.set pos b) (pos + 1) (by omega)]
    rw [List.getD_eq_getElem?_getD, List.getD_eq_getElem?_getD,
        List.getElem?_set_ne (show pos ≠ i by omega)]

theorem loadBytes_succ (d : List Nat) (pos n : Nat) :
    loadBytes d pos (n + 1) = d.getD pos 0 :: loadBytes d (pos + 1) n := by
  unfold loadBytes
  rw [List.range_succ_eq_map]
  rw [List.map_cons, List.map_map]
  congr 1
  apply List.map_congr_left
  intro i _
  show d.getD (pos + (i + 1)) 0 = d.getD (pos + 1 + i) 0
  congr 1
  omega

theorem loadBytes_storeBytes (bs d : List Nat) (pos : Nat)
    (h : pos + bs.length ≤ d.length) :
    loadBytes (storeBytes d pos bs) pos bs.length = bs := by
  induction bs generalizing d pos with
  | nil => rfl
  | cons b bs ih =>
    rw [List.length_cons, loadBytes_succ, storeBytes]
    rw [List.length_cons] at h
    congr 1
    · rw [storeBytes_getD_lt _ _ _ _ (by omega)]
      rw [List.getD_eq_getElem?_getD, List.getElem?_set_eq_of_lt _ (by omega)]
      rfl
    · exact ih (d.set pos b) (pos + 1) (by rw [List.length_set]; omega)

theorem wsub64_eq_sub (a b : Nat) (hb : b ≤ a) (ha : a < 2 ^ 64) :
    wsub64 a b = a - b := by
  unfold wsub64
  have hb' : b < 2 ^ 64 := lt_of_le_of_lt hb ha
  rw [Nat.mod_eq_of_lt ha, Nat.mod_eq_of_lt hb']
  rw [show a + (2 ^ 64 - b) = (a - b) + 2 ^ 64 by omega]
  rw [Nat.add_mod_right, Nat.mod_eq_of_lt (by omega)]

/-- C9: for every `n ∈ {1,2,4,8}`, every value `v` and every address whose
`n`-byte window lies inside RAM, writing the `n` little-endian bytes of `v`
through the bus succeeds, and the following `n`-byte bus read at the same
address returns exactly `v` truncated to `n` bytes
(`v % 2 ^ (8 n)`, i.e. `v & ((1 << 8n) - 1)`), little-endian, with no
alignment requirement on `addr`. -/
theorem C9_ram_write_read_roundtrip {δ : Type} (ops : DeviceOps δ) (m : Memory δ)
    (addr v n : Nat)
    (hn : n = 1 ∨ n = 2 ∨ n = 4 ∨ n = 8)
    (hdata : m.data.length = m.memory_size)
    (hfit : m.memory_base + m.memory_size < 2 ^ 64)
    (hlo : m.memory_base ≤ addr)
    (hhi : addr + n ≤ m.memory_base + m.memory_size) :
    (Memory.write ops m addr (leBytes n v)).1 = .ok () ∧
    Memory.read ops (Memory.write ops m addr (leBytes n v)).2 addr n
      = (.ok (leBytes n (v % 2 ^ (8 * n))), (Memory.write ops m addr (leBytes n v)).2) := by
  have hn1 : 1 ≤ n := by rcases hn with h | h | h | h <;> omega
  have hmem : m.is_mem_region addr := ⟨hlo, by omega⟩
  have hrange : m.is_mem_region_range addr n := by
    refine ⟨hlo, ?_⟩
    unfold satAdd64 U64_MAX
    omega
  have hw : Memory.write ops m addr (leBytes n v)
      = (.ok (), { m with
          data := storeBytes m.data (wsub64 addr m.memory_base) (leBytes n v) }) := by
    unfold Memory.write
    rw [if_pos hmem]
    simp only [leBytes_length]
    rw [if_pos hn, if_neg (not_not_intro hrange)]
  have hmem' :
      Memory.is_mem_region
        { m with data := storeBytes m.data (wsub64 addr m.memory_base) (leBytes n v) }
        addr := hmem
  have hrange' :
      Memory.is_mem_region_range
        { m with data := storeBytes m.data (wsub64 addr m.memory_base) (leBytes n v) }
        addr n := hrange
  have hsub : wsub64 addr m.memory_base = addr - m.memory_base :=
    wsub64_eq_sub addr m.memory_base hlo (by omega)
  have hload :
      loadBytes (storeBytes m.data (wsub64 addr m.memory_base) (leBytes n v))
        (wsub64 addr m.memory_base) n = leBytes n v := by
    have hls := loadBytes_storeBytes (leBytes n v) m.data (wsub64 addr m.memory_base)
      (by rw [leBytes_length, hsub]; omega)
    rwa [leBytes_length] at hls
  refine ⟨by rw [hw], ?_⟩
  rw [hw]
  unfold Memory.read
  rw [if_pos hmem', if_pos hn, if_neg (not_not_intro hrange')]
  rw [show Memory.data { m with
        data := storeBytes m.data (wsub64 addr m.memory_base) (leBytes n v) }
      = storeBytes m.data (wsub64 addr m.memory_base) (leBytes n v) from rfl]
  rw [show Memory.memory_base { m with
        data := storeBytes m.data (wsub64 addr m.memory_base) (leBytes n v) }
      = m.memory_base from rfl]
  rw [hload, leBytes_mod]

/-- A concrete bus for the round-trip witness: 16 bytes of RAM at
`0x80000000`. -/
def memC9 : Memory Unit :=
  { data := List.replicate 16 0
    memory_base := 0x80000000
    memory_size := 16
    mmio_regions := []
    is_last_mmio := false }

/-- Witness for `C9_ram_write_read_roundtrip`: write the 8 little-endian
bytes of `0xDEADBEEFCAFEBABE` at the (unaligned-by-8) address
`0x80000004` and read them back. -/
theorem C9_ram_write_read_roundtrip_witness :
    (Memory.write unitOps memC9 0x80000004 (leBytes 8 0xDEADBEEFCAFEBABE)).1 = .ok () ∧
    Memory.read unitOps (Memory.write unitOps memC9 0x80000004
        (leBytes 8 0xDEADBEEFCAFEBABE)).2 0x80000004 8
      = (.ok (leBytes 8 (0xDEADBEEFCAFEBABE % 2 ^ (8 * 8))),
         (Memory.write unitOps memC9 0x80000004 (leBytes 8 0xDEADBEEFCAFEBABE)).2) :=
  C9_ram_write_read_roundtrip unitOps memC9 0x80000004 0xDEADBEEFCAFEBABE 8
    (by decide) (by decide) (by decide) (by decide) (by decide)

/-! ## Claim C6 — MMIO mapping rejects exactly the overlaps -/

/-- Membership in the half-open address interval `[base, base + size)`. -/
def inInterval (base size x : Nat) : Prop := base ≤ x ∧ x < base + size

/-- Disjointness of two half-open address intervals (an empty interval is
disjoint from everything). -/
def intervalsDisjoint (b1 s1 b2 s2 : Nat) : Prop :=
  ∀ x, ¬(inInterval b1 s1 x ∧ inInterval b2 s2 x)

theorem intervalsDisjoint_symm {b1 s1 b2 s2 : Nat}
    (h : intervalsDisjoint b1 s1 b2 s2) : intervalsDisjoint b2 s2 b1 s1 :=
  fun x hx => h x ⟨hx.2, hx.1⟩

/-- If the source's overlap test is false, the intervals are disjoint
(this direction needs no nonemptiness assumptions). -/
theorem check_false_disjoint (b1 s1 b2 s2 : Nat)
    (h : ¬(b1 < b2 + s2 ∧ b1 + s1 > b2)) : intervalsDisjoint b1 s1 b2 s2 := by
  intro x hx
  rcases hx with ⟨⟨h1, h2⟩, h3, h4⟩
  push_neg at h
  omega

/-- For nonempty intervals, the source's overlap test is false exactly when
the intervals are disjoint. -/
theorem check_false_iff_disjoint (b1 s1 b2 s2 : Nat) (h1 : 1 ≤ s1) (h2 : 1 ≤ s2) :
    ¬(b1 < b2 + s2 ∧ b1 + s1 > b2) ↔ intervalsDisjoint b1 s1 b2 s2 := by
  constructor
  · exact check_false_disjoint b1 s1 b2 s2
  · intro h hc
    exact h (max b1 b2) ⟨⟨by omega, by omega⟩, by omega, by omega⟩

/-- A bus with 1 MiB of RAM at `0x80000000` and no MMIO regions yet (the
`data` buffer is irrelevant to mapping). -/
def memC6 : Memory Unit :=
  { data := []
    memory_base := 0x80000000
    memory_size := 0x100000
    mmio_regions := []
    is_last_mmio := false }

/-- `memC6` after successfully mapping a UART-sized region
`[0x10000000, 0x10000100)`. -/
def memC6u : Memory Unit := (memC6.map_mmio 0x10000000 0x100 () "uart").2

/-- C6 counterexample: mapping the empty region `[0x10000050, 0x10000050)`
(size 0) fails with `MmioOverlap` even though the empty interval is
disjoint from the one mapped region and from RAM — so "appends exactly
when `[base, base+size)` is disjoint from every already-mapped region and
from RAM" is false as stated. -/
theorem C6_counterexample :
    (memC6u.map_mmio 0x10000050 0 () "empty").1 = .error (.MmioOverlap 0x10000050) ∧
    memC6u.mmio_regions.map (fun r => (r.base, r.size)) = [(0x10000000, 0x100)] ∧
    intervalsDisjoint 0x10000050 0 0x10000000 0x100 ∧
    intervalsDisjoint 0x10000050 0 0x80000000 0x100000 := by
  refine ⟨by rfl, by rfl, ?_, ?_⟩ <;>
    · intro x hx
      rcases hx with ⟨⟨h1, h2⟩, _⟩
      omega

/-- Run a sequence of `map_mmio` calls, `none` as soon as one fails. -/
def mapAllMmio {δ : Type} (m : Memory δ) : List (MmioRegion δ) → Option (Memory δ)
  | [] => some m
  | r :: rs =>
    match m.map_mmio r.base r.size r.device r.name with
    | (.ok _, m') => mapAllMmio m' rs
    | (.error _, _) => none

/-- Pairwise interval-disjointness of a region list. -/
def regionsDisjoint {δ : Type} (regions : List (MmioRegion δ)) : Prop :=
  List.Pairwise (fun a b => intervalsDisjoint a.base a.size b.base b.size) regions

/-- A successful `map_mmio` call appends a region disjoint from every
existing region and from RAM, provided neither the request's end sum nor
any configured end sum wraps in u64 (no nonemptiness assumptions needed in
this direction). -/
theorem map_mmio_ok_spec {δ : Type} (m : Memory δ) (base size : Nat)
    (dev : δ) (name : String)
    (hnw : base + size < 2 ^ 64)
    (hregs : ∀ r ∈ m.mmio_regions, r.base + r.size < 2 ^ 64)
    (hmb : m.memory_base + m.memory_size < 2 ^ 64)
    (h : (m.map_mmio base size dev name).1 = .ok ()) :
    (m.map_mmio base size dev name).2
      = { m with mmio_regions := m.mmio_regions ++ [⟨base, size, dev, name⟩] } ∧
    (∀ r ∈ m.mmio_regions, intervalsDisjoint base size r.base r.size) ∧
    intervalsDisjoint base size m.memory_base m.memory_size := by
  unfold Memory.map_mmio at h ⊢
  simp only [] at h ⊢
  split at h
  · simp at h
  · split at h
    · simp at h
    · next hany hram =>
      refine ⟨by rw [if_neg hany, if_neg hram], ?_, ?_⟩
      · intro r hr
        apply check_false_disjoint
        intro hc
        have hmem : m.mmio_regions.any (fun region =>
            decide (base < (region.base + region.size) % 2 ^ 64 ∧
              (base + size) % 2 ^ 64 > region.base)) = true :=
          List.any_eq_true.mpr ⟨r, hr, by
            rw [Nat.mod_eq_of_lt (hregs r hr), Nat.mod_eq_of_lt hnw]
            simpa using hc⟩
        exact hany hmem
      · apply check_false_disjoint
        intro hc
        apply hram
        rw [Nat.mod_eq_of_lt hmb, Nat.mod_eq_of_lt hnw]
        exact hc

/-- Every memory produced by a chain of successful `map_mmio` calls keeps
its RAM window and has pairwise-disjoint regions, all disjoint from RAM,
provided that was true at the start and no end sum involved ever wraps in
u64. -/
theorem mapAllMmio_disjoint {δ : Type} :
    ∀ (rs : List (MmioRegion δ)) (m mfin : Memory δ),
    mapAllMmio m rs = some mfin →
    (∀ r ∈ rs, r.base + r.size < 2 ^ 64) →
    (∀ r ∈ m.mmio_regions, r.base + r.size < 2 ^ 64) →
    m.memory_base + m.memory_size < 2 ^ 64 →
    regionsDisjoint m.mmio_regions →
    (∀ r ∈ m.mmio_regions, intervalsDisjoint r.base r.size m.memory_base m.memory_size) →
    mfin.memory_base = m.memory_base ∧ mfin.memory_size = m.memory_size ∧
    regionsDisjoint mfin.mmio_regions ∧
    (∀ r ∈ mfin.mmio_regions,
      intervalsDisjoint r.base r.size mfin.memory_base mfin.memory_size) := by
  intro rs
  induction rs with
  | nil =>
    intro m mfin h _ _ _ hp hram
    cases h
    exact ⟨rfl, rfl, hp, hram⟩
  | cons r rs ih =>
    intro m mfin h hrs hregs hmb hp hram
    unfold mapAllMmio at h
    split at h
    · next m' heq =>
      have hok : (m.map_mmio r.base r.size r.device r.name).1 = .ok () := by
        rw [heq]
      obtain ⟨hm', hdisj, hramdisj⟩ := map_mmio_ok_spec m r.base r.size r.device r.name
        (hrs r (List.mem_cons_self r rs)) hregs hmb hok
      have hm'' : m' = { m with mmio_regions := m.mmio_regions ++ [⟨r.base, r.size, r.device, r.name⟩] } := by
        have : (m.map_mmio r.base r.size r.device r.name).2 = m' := by rw [heq]
        rw [← this, hm']
      subst hm''
      have := ih _ mfin h (fun a ha => hrs a (List.mem_cons_of_mem r ha)) ?_ hmb ?_ ?_
      · exact this
      · intro a ha
        rw [List.mem_append, List.mem_singleton] at ha
        rcases ha with ha | ha
        · exact hregs a ha
        · subst ha
          exact hrs r (List.mem_cons_self r rs)
      · show regionsDisjoint (m.mmio_regions ++ [⟨r.base, r.size, r.device, r.name⟩])
        unfold regionsDisjoint
        rw [List.pairwise_append]
        refine ⟨hp, List.pairwise_singleton _ _, ?_⟩
        intro a ha b hb
        rw [List.mem_singleton] at hb
        subst hb
        exact intervalsDisjoint_symm (hdisj a ha)
      · intro a ha
        rw [List.mem_append, List.mem_singleton] at ha
        rcases ha with ha | ha
        · exact hram a ha
        · subst ha
          exact hramdisj
    · exact absurd h (by simp)

/-- C6 amended: `map_mmio(base, size, ...)` with a *nonempty,
non-wrapping* request (`size ≥ 1` and `base + size < 2 ^ 64`, against
nonempty RAM and nonempty already-mapped regions whose end sums also fit in
u64, as produced by any real device configuration — the source computes the
interval ends with plain u64 additions, which wrap modulo `2 ^ 64` in
release builds) appends the region exactly when `[base, base + size)` is
disjoint from every already-mapped region and from the RAM window; any
failure is `MmioOverlap{addr = base}` and leaves the memory unchanged.
(For a zero-size request the code may also reject a disjoint — empty —
interval, see the counterexample; and a wrapping request could be accepted
despite overlapping.)  Consequently, every memory built by a sequence of
successful non-wrapping `map_mmio` calls — with no size restriction — has
pairwise interval-disjoint MMIO regions, all disjoint from RAM. -/
theorem C6_map_mmio_amended {δ : Type} (m : Memory δ) (base size : Nat)
    (dev : δ) (name : String)
    (hs : 1 ≤ size)
    (hnw : base + size < 2 ^ 64)
    (hram : 1 ≤ m.memory_size)
    (hmb : m.memory_base + m.memory_size < 2 ^ 64)
    (hregs : ∀ r ∈ m.mmio_regions, 1 ≤ r.size ∧ r.base + r.size < 2 ^ 64) :
    (((m.map_mmio base size dev name).1 = .ok () ∧
      (m.map_mmio base size dev name).2.mmio_regions
        = m.mmio_regions ++ [⟨base, size, dev, name⟩])
     ↔ ((∀ r ∈ m.mmio_regions, intervalsDisjoint base size r.base r.size) ∧
        intervalsDisjoint base size m.memory_base m.memory_size)) ∧
    ((m.map_mmio base size dev name).1 ≠ .ok () →
      (m.map_mmio base size dev name).1 = .error (.MmioOverlap base) ∧
      (m.map_mmio base size dev name).2 = m) ∧
    (∀ (rs : List (MmioRegion δ)) (m0 mfin : Memory δ),
      m0.mmio_regions = [] →
      (∀ r ∈ rs, r.base + r.size < 2 ^ 64) →
      m0.memory_base + m0.memory_size < 2 ^ 64 →
      mapAllMmio m0 rs = some mfin →
      regionsDisjoint mfin.mmio_regions ∧
      (∀ r ∈ mfin.mmio_regions,
        intervalsDisjoint r.base r.size mfin.memory_base mfin.memory_size)) := by
  refine ⟨⟨?_, ?_⟩, ?_, ?_⟩
  · rintro ⟨hok, _⟩
    exact (map_mmio_ok_spec m base size dev name hnw
      (fun r hr => (hregs r hr).2) hmb hok).2
  · rintro ⟨hdisj, hramdisj⟩
    have hany : ¬ (m.mmio_regions.any (fun region =>
        decide (base < (region.base + region.size) % 2 ^ 64 ∧
          (base + size) % 2 ^ 64 > region.base)) = true) := by
      intro hc
      rw [List.any_eq_true] at hc
      obtain ⟨r, hr, hcheck⟩ := hc
      rw [Nat.mod_eq_of_lt (hregs r hr).2, Nat.mod_eq_of_lt hnw] at hcheck
      exact (check_false_iff_disjoint base size r.base r.size hs (hregs r hr).1).mpr
        (hdisj r hr) (by simpa using hcheck)
    have hramchk : ¬ (base < (m.memory_base + m.memory_size) % 2 ^ 64 ∧
        (base + size) % 2 ^ 64 > m.memory_base) := by
      rw [Nat.mod_eq_of_lt hmb, Nat.mod_eq_of_lt hnw]
      exact (check_false_iff_disjoint base size m.memory_base m.memory_size hs hram).mpr
        hramdisj
    have hmap : m.map_mmio base size dev name
        = (.ok (), { m with
            mmio_regions := m.mmio_regions ++ [⟨base, size, dev, name⟩] }) := by
      unfold Memory.map_mmio
      simp only []
      rw [if_neg hany, if_neg hramchk]
    rw [hmap]
    exact ⟨rfl, rfl⟩
  · unfold Memory.map_mmio
    simp only []
    split
    · intro _; exact ⟨rfl, rfl⟩
    · split
      · intro _; exact ⟨rfl, rfl⟩
      · intro hne; exact absurd rfl hne
  · intro rs m0 mfin h0 hrs hmb0 hall
    have := mapAllMmio_disjoint rs m0 mfin hall hrs
      (by rw [h0]; intro r hr; exact absurd hr (List.not_mem_nil r))
      hmb0
      (by rw [h0]; exact List.Pairwise.nil)
      (by rw [h0]; intro r hr; exact absurd hr (List.not_mem_nil r))
    exact ⟨this.2.2.1, this.2.2.2⟩

/-- Witness for `C6_map_mmio_amended`: mapping `[0x20000000, 0x20000100)`
on top of the already-mapped `[0x10000000, 0x10000100)` (1 MiB RAM at
`0x80000000`) is disjoint from both, so the call succeeds and appends the
region. -/
theorem C6_map_mmio_amended_witness :
    (memC6u.map_mmio 0x20000000 0x100 () "dev2").1 = .ok () ∧
    (memC6u.map_mmio 0x20000000 0x100 () "dev2").2.mmio_regions
      = memC6u.mmio_regions ++ [⟨0x20000000, 0x100, (), "dev2"⟩] := by
  have hreg : memC6u.mmio_regions = [⟨0x10000000, 0x100, (), "uart"⟩] := rfl
  apply ((C6_map_mmio_amended memC6u 0x20000000 0x100 () "dev2"
    (by decide) (by decide) (by decide) (by decide) ?_).1).mpr ?_
  · intro r hr
    rw [hreg, List.mem_singleton] at hr
    subst hr
    decide
  · constructor
    · intro r hr
      rw [hreg, List.mem_singleton] at hr
      subst hr
      show intervalsDisjoint 0x20000000 0x100 0x10000000 0x100
      intro x hx
      rcases hx with ⟨⟨h1, h2⟩, h3, h4⟩
      omega
    · show intervalsDisjoint 0x20000000 0x100 0x80000000 0x100000
      intro x hx
      rcases hx with ⟨⟨h1, h2⟩, h3, h4⟩
      omega

/-! ## Claim C8 — ring buffer capacity and FIFO order

The proof goes through an abstraction: `rbList rb` is the logical FIFO
content of a well-formed ring buffer (oldest first), `push_overwrite`
appends to it (dropping the head when at capacity), and `pop` removes its
head. -/

/-- The structural invariant every buffer reachable from `new` (with
nonzero capacity) maintains. -/
def rbWf (rb : RingBuffer α) : Prop :=
  0 < rb.buf.length ∧ rb.read < rb.buf.length ∧ rb.write < rb.buf.length ∧
  (rb.full = true → rb.read = rb.write)

/-- The logical FIFO content, oldest first. -/
def rbList [Inhabited α] (rb : RingBuffer α) : List α :=
  (List.range rb.len).map fun i => rb.buf.getD ((rb.read + i) % rb.buf.length) default

theorem getD_set_self (l : List α) (i : Nat) (a d : α) (h : i < l.length) :
    (l.set i a).getD i d = a := by
  rw [List.getD_eq_getElem?_getD, List.getElem?_set_eq_of_lt _ h]
  rfl

theorem getD_set_ne (l : List α) (i j : Nat) (a d : α) (h : i ≠ j) :
    (l.set i a).getD j d = l.getD j d := by
  rw [List.getD_eq_getElem?_getD, List.getD_eq_getElem?_getD, List.getElem?_set_ne h]

theorem rbList_length [Inhabited α] (rb : RingBuffer α) :
    (rbList rb).length = rb.len := by
  simp [rbList]

theorem rbList_getElem [Inhabited α] (rb : RingBuffer α) (i : Nat)
    (h : i < (rbList rb).length) :
    (rbList rb)[i] = rb.buf.getD ((rb.read + i) % rb.buf.length) default := by
  simp [rbList]

theorem rb_len_le (rb : RingBuffer α) (hL : 0 < rb.buf.length) :
    rb.len ≤ rb.buf.length := by
  unfold RingBuffer.len
  split
  · exact le_rfl
  · exact le_of_lt (Nat.mod_lt _ hL)

theorem mod_diff_eq (r w L : Nat) (hr : r < L) (hw : w < L) :
    (w + L - r) % L = if r ≤ w then w - r else w + L - r := by
  split
  · next h =>
    rw [show w + L - r = (w - r) + L by omega, Nat.add_mod_right,
        Nat.mod_eq_of_lt (by omega)]
  · next h => exact Nat.mod_eq_of_lt (by omega)

theorem rb_len_zero_iff (rb : RingBuffer α) (hwf : rbWf rb) :
    rb.len = 0 ↔ rb.is_empty = true := by
  obtain ⟨hL, hr, hw, hful⟩ := hwf
  unfold RingBuffer.len RingBuffer.is_empty
  constructor
  · intro h
    split at h
    · omega
    · rw [mod_diff_eq _ _ _ hr hw] at h
      next hnf =>
      have hnf' : rb.full = false := by revert hnf; cases rb.full <;> simp
      rw [hnf']
      simp only [Bool.not_false, Bool.true_and, beq_iff_eq]
      split at h <;> omega
  · intro h
    simp only [Bool.and_eq_true, Bool.not_eq_true', beq_iff_eq] at h
    obtain ⟨hnf, hrw⟩ := h
    rw [if_neg (by simp [hnf]), hrw,
        show rb.write + rb.buf.length - rb.write = rb.buf.length by omega,
        Nat.mod_self]

theorem mod_small2 (a L : Nat) (h : a < 2 * L) (hL : 0 < L) :
    a % L = if a < L then a else a - L := by
  split
  · exact Nat.mod_eq_of_lt ‹_›
  · rw [Nat.mod_eq_sub_mod (by omega), Nat.mod_eq_of_lt (by omega)]

theorem push_overwrite_full (rb : RingBuffer α) (x : α) (hf : rb.full = true) :
    rb.push_overwrite x =
      ⟨rb.buf.set rb.write x, (rb.write + 1) % rb.buf.length,
       (rb.write + 1) % rb.buf.length, true⟩ := by
  unfold RingBuffer.push_overwrite
  simp only [List.length_set, hf, if_true]

theorem push_overwrite_wrap (rb : RingBuffer α) (x : α) (hf : rb.full = false)
    (hw : (rb.write + 1) % rb.buf.length = rb.read) :
    rb.push_overwrite x =
      ⟨rb.buf.set rb.write x, rb.read, (rb.write + 1) % rb.buf.length, true⟩ := by
  unfold RingBuffer.push_overwrite
  simp only [List.length_set, hf, Bool.false_eq_true, if_false, hw, beq_self_eq_true, if_true]

theorem push_overwrite_plain (rb : RingBuffer α) (x : α) (hf : rb.full = false)
    (hw : (rb.write + 1) % rb.buf.length ≠ rb.read) :
    rb.push_overwrite x =
      ⟨rb.buf.set rb.write x, rb.read, (rb.write + 1) % rb.buf.length, false⟩ := by
  unfold RingBuffer.push_overwrite
  simp only [List.length_set, hf, Bool.false_eq_true, if_false]
  rw [if_neg (by simpa using hw)]

theorem mod_eq_cases (a L : Nat) (hL : 0 < L) (h : a < 2 * L) :
    (a % L = a ∧ a < L) ∨ (a % L = a - L ∧ L ≤ a) := by
  rcases Nat.lt_or_ge a L with h1 | h1
  · exact Or.inl ⟨Nat.mod_eq_of_lt h1, h1⟩
  · exact Or.inr ⟨by rw [Nat.mod_eq_sub_mod h1, Nat.mod_eq_of_lt (by omega)], h1⟩

/-- In a ring of size `L`, starting at `r`, the cells strictly before the
distance `(w + L - r) % L` differ from `w`, and the cell at exactly that
distance is `w`. -/
theorem ring_index_spec (r w L : Nat) (hr : r < L) (hw : w < L) :
    (∀ i, i < (w + L - r) % L → (r + i) % L ≠ w) ∧
    (r + (w + L - r) % L) % L = w := by
  constructor
  · intro i hi
    rw [mod_diff_eq _ _ _ hr hw] at hi
    rcases mod_eq_cases (r + i) L (by omega) (by split at hi <;> omega)
      with ⟨he, hb⟩ | ⟨he, hb⟩ <;> rw [he] <;> split at hi <;> omega
  · rw [mod_diff_eq _ _ _ hr hw]
    split
    · rw [show r + (w - r) = w by omega, Nat.mod_eq_of_lt hw]
    · rw [show r + (w + L - r) = w + L by omega, Nat.add_mod_right, Nat.mod_eq_of_lt hw]

/-- The ring distance from the cell after `w` back to `w` is `L - 1`. -/
theorem dist_after_full (w L : Nat) (hw : w < L) :
    (w + L - (w + 1) % L) % L = L - 1 := by
  rcases mod_eq_cases (w + 1) L (by omega) (by omega) with ⟨he, hb⟩ | ⟨he, hb⟩ <;> rw [he]
  · rw [show w + L - (w + 1) = L - 1 by omega, Nat.mod_eq_of_lt (by omega)]
  · rw [show w + 1 - L = 0 by omega, Nat.sub_zero,
        show w + L = (L - 1) + L by omega, Nat.add_mod_right, Nat.mod_eq_of_lt (by omega)]

/-- Advancing the write cursor by one grows the ring distance by one, as
long as it does not wrap onto the read cursor. -/
theorem dist_succ (r w L : Nat) (hr : r < L) (hw : w < L)
    (hne : (w + 1) % L ≠ r) :
    ((w + 1) % L + L - r) % L = (w + L - r) % L + 1 := by
  rcases mod_eq_cases (w + 1) L (by omega) (by omega) with ⟨he, hb⟩ | ⟨he, hb⟩ <;>
    rw [he] at hne ⊢
  · rw [mod_diff_eq _ _ _ hr hw, mod_diff_eq _ _ _ hr (by omega)]
    split_ifs <;> omega
  · rw [show w + 1 - L = 0 by omega] at hne ⊢
    rw [mod_diff_eq _ _ _ hr hw, mod_diff_eq _ _ _ hr (by omega)]
    split_ifs <;> omega

/-- `push_overwrite` preserves the invariant and capacity, caps the length
at capacity, and on the abstract FIFO appends the new item, dropping the
oldest exactly when already at capacity. -/
theorem push_overwrite_spec [Inhabited α] (rb : RingBuffer α) (x : α) (hwf : rbWf rb) :
    rbWf (rb.push_overwrite x) ∧
    (rb.push_overwrite x).buf.length = rb.buf.length ∧
    (rb.push_overwrite x).len = min (rb.len + 1) rb.buf.length ∧
    rbList (rb.push_overwrite x)
      = (if rb.len = rb.buf.length then (rbList rb).drop 1 else rbList rb) ++ [x] := by
  obtain ⟨hL, hr, hw, hful⟩ := hwf
  by_cases hf : rb.full = true
  case pos =>
    have hrw := hful hf
    have hlen : rb.len = rb.buf.length := by simp [RingBuffer.len, hf]
    have hr2 : (rb.write + 1) % rb.buf.length < rb.buf.length := Nat.mod_lt _ hL
    have hdist := dist_after_full rb.write rb.buf.length hw
    have hspec := ring_index_spec ((rb.write + 1) % rb.buf.length) rb.write
      rb.buf.length hr2 hw
    rw [push_overwrite_full rb x hf, if_pos hlen]
    have hnewF : RingBuffer.len (⟨rb.buf.set rb.write x, (rb.write + 1) % rb.buf.length,
        (rb.write + 1) % rb.buf.length, true⟩ : RingBuffer α) = rb.buf.length := by
      conv_lhs => unfold RingBuffer.len
      simp [List.length_set]
    refine ⟨⟨?_, ?_, ?_, fun _ => rfl⟩, by simp [List.length_set], ?_, ?_⟩
    · simpa [List.length_set] using hL
    · simpa [List.length_set] using hr2
    · simpa [List.length_set] using hr2
    · rw [hnewF, hlen]
      omega
    · apply List.ext_getElem
      · rw [rbList_length, hnewF, List.length_append, List.length_drop, rbList_length, hlen]
        simp
        omega
      · intro i h1 h2
        rw [rbList_getElem _ i h1]
        simp only [List.length_set]
        have h1' : i < rb.buf.length := by
          rw [rbList_length, hnewF] at h1
          exact h1
        by_cases hi : i < rb.buf.length - 1
        · rw [getD_set_ne _ _ _ _ _ (Ne.symm (hspec.1 i (by rw [hdist]; exact hi)))]
          rw [List.getElem_append_left
            (by rw [List.length_drop, rbList_length, hlen]; omega)]
          rw [List.getElem_drop]
          rw [rbList_getElem _ (1 + i) (by rw [rbList_length, hlen]; omega)]
          rw [hrw, Nat.mod_add_mod,
              show rb.write + (1 + i) = rb.write + 1 + i from by omega]
        · have hieq : i = rb.buf.length - 1 := by omega
          have hidx : ((rb.write + 1) % rb.buf.length + i) % rb.buf.length = rb.write := by
            rw [hieq, ← hdist]
            exact hspec.2
          rw [hidx, getD_set_self _ _ _ _ hw]
          rw [List.getElem_append_right
            (by rw [List.length_drop, rbList_length, hlen]; omega)]
          simp
  case neg =>
    have hf' : rb.full = false := by revert hf; cases rb.full <;> simp
    have hklt : rb.len < rb.buf.length := by
      simp only [RingBuffer.len, hf', Bool.false_eq_true, if_false]
      exact Nat.mod_lt _ hL
    have hkval : rb.len = (rb.write + rb.buf.length - rb.read) % rb.buf.length := by
      simp [RingBuffer.len, hf']
    have hspec := ring_index_spec rb.read rb.write rb.buf.length hr hw
    have hifneg : ¬ (rb.len = rb.buf.length) := by omega
    rw [if_neg hifneg]
    by_cases hwrap : (rb.write + 1) % rb.buf.length = rb.read
    · have hkeq : rb.len = rb.buf.length - 1 := by
        rw [hkval, ← hwrap]
        exact dist_after_full _ _ hw
      rw [push_overwrite_wrap rb x hf' hwrap]
      have hnewW : RingBuffer.len (⟨rb.buf.set rb.write x, rb.read,
          (rb.write + 1) % rb.buf.length, true⟩ : RingBuffer α) = rb.buf.length := by
        conv_lhs => unfold RingBuffer.len
        simp [List.length_set]
      refine ⟨⟨?_, ?_, ?_, fun _ => hwrap.symm⟩, by simp [List.length_set], ?_, ?_⟩
      · simpa [List.length_set] using hL
      · simpa [List.length_set] using hr
      · simpa [List.length_set] using (Nat.mod_lt (rb.write + 1) hL)
      · rw [hnewW, hkeq]
        omega
      · apply List.ext_getElem
        · rw [rbList_length, hnewW, List.length_append, rbList_length, hkeq]
          simp
          omega
        · intro i h1 h2
          rw [rbList_getElem _ i h1]
          simp only [List.length_set]
          have h1' : i < rb.buf.length := by
            rw [rbList_length, hnewW] at h1
            exact h1
          by_cases hi : i < rb.len
          · rw [getD_set_ne _ _ _ _ _ (Ne.symm (hspec.1 i (by rw [← hkval]; exact hi)))]
            rw [List.getElem_append_left (by rw [rbList_length]; exact hi)]
            rw [rbList_getElem _ i (by rw [rbList_length]; exact hi)]
          · have hieq : i = rb.len := by omega
            have hidx : (rb.read + i) % rb.buf.length = rb.write := by
              rw [hieq, hkval]
              exact hspec.2
            rw [hidx, getD_set_self _ _ _ _ hw]
            rw [List.getElem_append_right (by rw [rbList_length]; omega)]
            simp
    · have hlen' := dist_succ rb.read rb.write rb.buf.length hr hw hwrap
      rw [push_overwrite_plain rb x hf' hwrap]
      have hnewP : RingBuffer.len (⟨rb.buf.set rb.write x, rb.read,
          (rb.write + 1) % rb.buf.length, false⟩ : RingBuffer α) = rb.len + 1 := by
        conv_lhs => unfold RingBuffer.len
        simp only [List.length_set, Bool.false_eq_true, if_false]
        rw [hlen', ← hkval]
      refine ⟨⟨?_, ?_, ?_, ?_⟩, by simp [List.length_set], ?_, ?_⟩
      · simpa [List.length_set] using hL
      · simpa [List.length_set] using hr
      · simpa [List.length_set] using (Nat.mod_lt (rb.write + 1) hL)
      · intro hcontra
        simp at hcontra
      · rw [hnewP]
        omega
      · apply List.ext_getElem
        · rw [rbList_length, hnewP, List.length_append, rbList_length]
          simp
        · intro i h1 h2
          rw [rbList_getElem _ i h1]
          simp only [List.length_set]
          have h1' : i < rb.len + 1 := by
            rw [rbList_length, hnewP] at h1
            exact h1
          by_cases hi : i < rb.len
          · rw [getD_set_ne _ _ _ _ _ (Ne.symm (hspec.1 i (by rw [← hkval]; exact hi)))]
            rw [List.getElem_append_left (by rw [rbList_length]; exact hi)]
            rw [rbList_getElem _ i (by rw [rbList_length]; exact hi)]
          · have hieq : i = rb.len := by omega
            have hidx : (rb.read + i) % rb.buf.length = rb.write := by
              rw [hieq, hkval]
              exact hspec.2
            rw [hidx, getD_set_self _ _ _ _ hw]
            rw [List.getElem_append_right (by rw [rbList_length]; omega)]
            simp

/-- Advancing the read cursor by one shrinks a nonzero ring distance by
one. -/
theorem dist_pred (r w L : Nat) (hr : r < L) (hw : w < L)
    (hne : (w + L - r) % L ≠ 0) :
    (w + L - (r + 1) % L) % L = (w + L - r) % L - 1 := by
  rcases mod_eq_cases (r + 1) L (by omega) (by omega) with ⟨he, hb⟩ | ⟨he, hb⟩ <;> rw [he]
  · rw [mod_diff_eq r w L hr hw] at hne ⊢
    rw [mod_diff_eq (r + 1) w L (by omega) hw]
    split_ifs at hne ⊢ <;> omega
  · rw [show r + 1 - L = 0 by omega, Nat.sub_zero]
    rw [mod_diff_eq r w L hr hw] at hne ⊢
    rw [Nat.add_mod_right, Nat.mod_eq_of_lt hw]
    split_ifs at hne ⊢ <;> omega

/-- `pop` on an empty (well-formed) buffer fails with `Empty`. -/
theorem pop_empty [Inhabited α] (rb : RingBuffer α) (hwf : rbWf rb)
    (h0 : rb.len = 0) : rb.pop = .error .Empty := by
  unfold RingBuffer.pop
  rw [if_pos ((rb_len_zero_iff rb hwf).mp h0)]

/-- `pop` on a nonempty (well-formed) buffer returns the head of the
abstract FIFO and the buffer holding its tail. -/
theorem pop_spec [Inhabited α] (rb : RingBuffer α) (hwf : rbWf rb)
    (hne : 0 < rb.len) :
    rb.pop = .ok (rb.buf.getD rb.read default,
      { rb with read := (rb.read + 1) % rb.buf.length, full := false }) ∧
    rbWf { rb with read := (rb.read + 1) % rb.buf.length, full := false } ∧
    RingBuffer.len { rb with read := (rb.read + 1) % rb.buf.length, full := false }
      = rb.len - 1 ∧
    rbList rb = rb.buf.getD rb.read default ::
      rbList { rb with read := (rb.read + 1) % rb.buf.length, full := false } := by
  obtain ⟨hL, hr, hw, hful⟩ := hwf
  have hemp : rb.is_empty = false := by
    rcases Bool.eq_false_or_eq_true rb.is_empty with h | h
    · exact absurd ((rb_len_zero_iff rb ⟨hL, hr, hw, hful⟩).mpr h) (by omega)
    · exact h
  have hlen' : RingBuffer.len
      { rb with read := (rb.read + 1) % rb.buf.length, full := false }
      = rb.len - 1 := by
    conv_lhs => unfold RingBuffer.len
    simp only [Bool.false_eq_true, if_false]
    by_cases hf : rb.full = true
    · have hrw := hful hf
      have hlen : rb.len = rb.buf.length := by simp [RingBuffer.len, hf]
      rw [hlen, hrw]
      exact dist_after_full _ _ hw
    · have hf' : rb.full = false := by revert hf; cases rb.full <;> simp
      have hkval : rb.len = (rb.write + rb.buf.length - rb.read) % rb.buf.length := by
        simp [RingBuffer.len, hf']
      rw [hkval]
      exact dist_pred _ _ _ hr hw (by omega)
  refine ⟨?_, ⟨hL, Nat.mod_lt _ hL, hw, by intro h; simp at h⟩, hlen', ?_⟩
  · unfold RingBuffer.pop
    rw [if_neg (by simp [hemp])]
  · apply List.ext_getElem
    · rw [rbList_length, List.length_cons, rbList_length, hlen']
      omega
    · intro i h1 h2
      rw [rbList_getElem _ i h1]
      cases i with
      | zero =>
        rw [List.getElem_cons_zero, Nat.add_zero, Nat.mod_eq_of_lt hr]
      | succ j =>
        rw [List.getElem_cons_succ]
        rw [rbList_getElem _ j
          (by rw [rbList_length, hlen']; rw [rbList_length] at h1; omega)]
        rw [Nat.mod_add_mod,
            show (rb.read + 1) + j = rb.read + (j + 1) from by omega]

/-- The abstract FIFO step of `push_overwrite` over a capacity-`L` ring:
append, dropping the oldest when at capacity. -/
def pushA (L : Nat) (l : List α) (x : α) : List α :=
  (if l.length = L then l.drop 1 else l) ++ [x]

theorem foldl_pushA (L : Nat) (hL : 0 < L) (xs : List α) :
    xs.foldl (pushA L) [] = xs.drop (xs.length - L) ∧
    (xs.foldl (pushA L) []).length = min xs.length L := by
  induction xs using List.reverseRecOn with
  | nil => simp
  | append_singleton ys y ih =>
    obtain ⟨ihl, ihlen⟩ := ih
    rw [List.foldl_append, List.foldl_cons, List.foldl_nil, ihl]
    have hdl : (ys.drop (ys.length - L)).length = min ys.length L := by
      rw [List.length_drop]
      omega
    unfold pushA
    by_cases hk : L ≤ ys.length
    · rw [if_pos (by rw [hdl]; omega)]
      constructor
      · rw [List.drop_drop]
        rw [List.drop_append_of_le_length (by simp; omega)]
        congr 2
        simp
        omega
      · rw [List.length_append, List.length_drop, List.length_drop, List.length_append]
        simp
        omega
    · rw [if_neg (by rw [hdl]; omega)]
      rw [show ys.length - L = 0 by omega, List.drop_zero]
      constructor
      · rw [show (ys ++ [y]).length - L = 0 by simp; omega, List.drop_zero]
      · rw [List.length_append]
        simp
        omega

/-- The simulation: pushing a whole sequence onto a fresh buffer of
capacity `c` keeps the invariant and the capacity, and the abstract
content is the `foldl` of the abstract step. -/
theorem pushAll_sim [Inhabited α] (c : Nat) (d : α) (hc : 0 < c) (xs : List α) :
    rbWf ((RingBuffer.new c d).pushAll xs) ∧
    ((RingBuffer.new c d).pushAll xs).buf.length = c ∧
    rbList ((RingBuffer.new c d).pushAll xs) = xs.foldl (pushA c) [] := by
  induction xs using List.reverseRecOn with
  | nil =>
    refine ⟨⟨?_, ?_, ?_, ?_⟩, ?_, ?_⟩
    · simpa [RingBuffer.new, RingBuffer.pushAll] using hc
    · simpa [RingBuffer.new, RingBuffer.pushAll] using hc
    · simpa [RingBuffer.new, RingBuffer.pushAll] using hc
    · intro h
      simp [RingBuffer.new, RingBuffer.pushAll] at h
    · simp [RingBuffer.pushAll, RingBuffer.new]
    · simp [RingBuffer.pushAll, rbList, RingBuffer.len, RingBuffer.new]
  | append_singleton ys y ih =>
    obtain ⟨ihwf, ihlen, ihlist⟩ := ih
    obtain ⟨hwf', hlen', hsz', hlist'⟩ :=
      push_overwrite_spec ((RingBuffer.new c d).pushAll ys) y ihwf
    have hfold : (RingBuffer.new c d).pushAll (ys ++ [y])
        = ((RingBuffer.new c d).pushAll ys).push_overwrite y := by
      unfold RingBuffer.pushAll
      rw [List.foldl_append, List.foldl_cons, List.foldl_nil]
    rw [hfold]
    refine ⟨hwf', by rw [hlen', ihlen], ?_⟩
    rw [hlist', List.foldl_append, List.foldl_cons, List.foldl_nil]
    rw [show ∀ (l : List α) (x : α), pushA c l x
          = (if l.length = c then l.drop 1 else l) ++ [x] from fun _ _ => rfl]
    rw [← ihlist, rbList_length, ihlen]

/-- Draining `n` pops returns the first `n` abstract elements. -/
theorem drain_spec [Inhabited α] (n : Nat) (rb : RingBuffer α) (hwf : rbWf rb) :
    RingBuffer.drain n rb = (rbList rb).take n := by
  induction n generalizing rb with
  | zero => rfl
  | succ k ih =>
    unfold RingBuffer.drain
    by_cases h0 : rb.len = 0
    · rw [pop_empty rb hwf h0]
      have hnil : rbList rb = [] := by
        unfold rbList
        rw [h0]
        rfl
      rw [hnil]
      rfl
    · obtain ⟨hpop, hwf', hlen', hcons⟩ := pop_spec rb hwf (by omega)
      rw [hpop]
      show rb.buf.getD rb.read default ::
          RingBuffer.drain k { rb with read := (rb.read + 1) % rb.buf.length, full := false }
        = (rbList rb).take (k + 1)
      rw [ih _ hwf', hcons, List.take_succ_cons]

/-- C8: for every capacity `c ≥ 1` and every sequence `xs` of
`push_overwrite` calls on a fresh buffer (no call can fail: the operation
is total), the buffer's length never exceeds `c` (for any sequence), the
subsequent pops return exactly the most recent `min xs.length c` pushed
items oldest-first, and `pop` fails with `Empty` exactly when the buffer
is empty (here: exactly when nothing was pushed). -/
theorem C8_ring_buffer_fifo {α : Type} [Inhabited α] (c : Nat) (d : α) (xs : List α)
    (hc : 1 ≤ c) :
    ((RingBuffer.new c d).pushAll xs).len = min xs.length c ∧
    (∀ ys : List α, ((RingBuffer.new c d).pushAll ys).len ≤ c) ∧
    RingBuffer.drain c ((RingBuffer.new c d).pushAll xs)
      = xs.drop (xs.length - min xs.length c) ∧
    (((RingBuffer.new c d).pushAll xs).pop.isOk = false ↔ xs = []) := by
  obtain ⟨hwf, hlen, hlist⟩ := pushAll_sim c d hc xs
  obtain ⟨hfold, hflen⟩ := foldl_pushA c hc xs
  have hrblen : ((RingBuffer.new c d).pushAll xs).len = min xs.length c := by
    rw [← rbList_length, hlist, hflen]
  refine ⟨hrblen, ?_, ?_, ?_⟩
  · intro ys
    obtain ⟨hwf2, hlen2, _⟩ := pushAll_sim c d hc ys
    exact le_trans (rb_len_le _ hwf2.1) (le_of_eq hlen2)
  · rw [drain_spec c _ hwf, hlist, hfold]
    rw [List.take_of_length_le (by rw [List.length_drop]; omega)]
    congr 1
    omega
  · constructor
    · intro hpopErr
      by_contra hxs
      have hlpos : 0 < ((RingBuffer.new c d).pushAll xs).len := by
        rw [hrblen]
        have hne : xs.length ≠ 0 := fun h => hxs (List.length_eq_zero.mp h)
        omega
      obtain ⟨hpop, _, _, _⟩ := pop_spec _ hwf hlpos
      rw [hpop] at hpopErr
      simp [Except.isOk, Except.toBool] at hpopErr
    · intro hxs
      subst hxs
      have h0 : ((RingBuffer.new c d).pushAll ([] : List α)).len = 0 := by
        rw [hrblen]
        simp
      rw [pop_empty _ hwf h0]
      rfl

/-- Witness for `C8_ring_buffer_fifo`: capacity 2, pushes `[1, 2, 3]` —
the buffer holds 2 items, draining yields `[2, 3]` (the most recent two,
oldest first), and `pop` succeeds. -/
theorem C8_ring_buffer_fifo_witness :
    ((RingBuffer.new 2 (0 : Nat)).pushAll [1, 2, 3]).len = min 3 2 ∧
    (∀ ys : List Nat, ((RingBuffer.new 2 (0 : Nat)).pushAll ys).len ≤ 2) ∧
    RingBuffer.drain 2 ((RingBuffer.new 2 (0 : Nat)).pushAll [1, 2, 3]) = [2, 3] ∧
    (((RingBuffer.new 2 (0 : Nat)).pushAll [1, 2, 3]).pop.isOk = false
      ↔ [1, 2, 3] = ([] : List Nat)) := by
  have h := C8_ring_buffer_fifo 2 (0 : Nat) [1, 2, 3] (by decide)
  refine ⟨h.1, h.2.1, ?_, h.2.2.2⟩
  have hd := h.2.2.1
  simpa using hd
